import Mathlib

/- Shallow embedding of the glyph-atlas text layout engine implemented in
   src/src/modules/graphics/Font.cpp, together with proofs about it.
   C++ float quantities are modelled as rationals, uint32 codepoints as Nat,
   and GPU texture objects as allocation-ordered Nat identifiers, standing in
   for pointer identity and pointer ordering.  Member functions that mutate
   the C++ Font object are modelled as state transformers on a Font
   structure; the mutually recursive atlas-growth path takes a fuel
   parameter and returns none when the fuel runs out (or when the source
   would throw an exception).  External collaborators that are out of scope
   per the spec (the rasterizer, the UTF-8 decoder, the GPU, the color
   utilities) are modelled as function-valued parameters; strings are
   modelled as their codepoint sequences. -/

namespace LoveFont

/-- Rounding helper: the source applies floorf to C floats; floats holding
glyph metrics are modelled as rationals. -/
def floorq (x : ℚ) : ℚ := ((Rat.floor x : ℤ) : ℚ)

/-- Truncation toward zero, the semantics of a C float-to-int cast. -/
def truncq (x : ℚ) : ℤ := Int.tdiv x.num (x.den : ℤ)

/-- Pixel formats relevant to the font atlas (Font.cpp uses LA8 for truetype
glyphs, upgraded to RGBA8 when LA8 sampling is unsupported). -/
inductive PixelFormat where
  | la8 : PixelFormat
  | rgba8 : PixelFormat
deriving DecidableEq

/-- Rasterizer data types distinguished by the source (DATA_TRUETYPE versus
image/bitmap rasterizers). -/
inductive RasterizerDataType where
  | truetype : RasterizerDataType
  | image : RasterizerDataType
deriving DecidableEq

/-- Modelled from the spec: love::font::GlyphData (its header is not under
src/) packages a glyph bitmap with metrics: advance, bearings, bitmap width
and height in pixels, and a pixel format.  A GlyphData constructed from
metrics alone (the tab special case) has width and height zero. -/
structure GlyphData where
  advance : ℚ
  bearingX : ℚ
  bearingY : ℚ
  width : Int
  height : Int
  format : PixelFormat
deriving DecidableEq

/-- The rasterizer collaborator (external per spec section 6), as the
capability interface the Font consumes. -/
structure Rasterizer where
  hasGlyph : Nat → Bool
  glyphData : Nat → GlyphData
  kerning : Nat → Nat → ℚ
  height : ℚ
  ascent : ℚ
  descent : ℚ
  dpiScale : ℚ
  dataType : RasterizerDataType

/-- Float RGBA color (love::Colorf). -/
structure Colorf where
  r : ℚ
  g : ℚ
  b : ℚ
  a : ℚ
deriving DecidableEq

/-- 8-bit RGBA color (love::Color32). -/
structure Color32 where
  r : Nat
  g : Nat
  b : Nat
  a : Nat
deriving DecidableEq

/-- A color span: a color applying from a start index onward. -/
structure IndexedColor where
  color : Colorf
  index : Nat
deriving DecidableEq

/-- One input string with an associated color; the string is modelled as its
decoded codepoint sequence (UTF-8 decoding is an external collaborator). -/
structure ColoredString where
  str : List Nat
  color : Colorf
deriving DecidableEq

/-- Codepoint sequence with its sparse list of color spans. -/
structure ColoredCodepoints where
  cps : List Nat
  colors : List IndexedColor
deriving DecidableEq

/-- Vertex format of the glyph quads (position, 16-bit normalized UV,
color). -/
structure GlyphVertex where
  x : ℚ
  y : ℚ
  s : Nat
  t : Nat
  color : Color32
deriving DecidableEq

/-- Cached glyph record: owning texture id (none when the glyph has no
visible bitmap), advance in logical units, and the four quad vertices. -/
structure Glyph where
  texture : Option Nat
  spacing : ℚ
  vertices : List GlyphVertex
deriving DecidableEq

/-- A draw command: a contiguous vertex range, tagged with its texture. -/
structure DrawCommand where
  startvertex : Nat
  vertexcount : Nat
  texture : Nat
deriving DecidableEq

/-- Texture dimensions in pixels. -/
structure TextureSize where
  width : Int
  height : Int
deriving DecidableEq

/-- Metrics output parameter of generateVertices. -/
structure TextInfo where
  width : Int
  height : Int
deriving DecidableEq

/-- External color utilities consumed by generateVertices (gamma correction
and float-to-byte conversion live in the out-of-scope common/math module). -/
structure ColorOps where
  gammaCorrect : Colorf → Colorf
  unGammaCorrect : Colorf → Colorf
  toColor32 : Colorf → Color32

/-- Modelled from the spec: TEXTURE_PADDING is a constant in the Font header
(not under src/); the spec requires at least one pixel of padding around
every packed glyph. -/
def TEXTURE_PADDING : Int := 1

/-- Modelled from the spec: SPACES_PER_TAB is the configurable multiplier in
the Font header (not under src/) giving the synthesized tab advance as a
multiple of the space advance. -/
def SPACES_PER_TAB : ℚ := 4

/-- Opaque white, the color elided by the decode optimization. -/
def whiteColorf : Colorf := ⟨1, 1, 1, 1⟩

/-- The Font object state: configuration from the constructor together with
the mutable caches.  Field names follow the C++ members.  The sampler state
is omitted: it only affects GPU filtering, which no claim touches.
nextTextureID is the allocation counter behind the texture-id model, and
gfxMaxTextureSize models the platform texture-size capability reported by
the Graphics collaborator (none when no graphics instance exists). -/
structure Font where
  primaryRast : Rasterizer
  fallbackRasts : List Rasterizer
  height : ℚ
  lineHeight : ℚ
  textureWidth : Int
  textureHeight : Int
  dpiScale : ℚ
  useSpacesAsTab : Bool
  textureCacheID : Nat
  glyphs : List (Nat × Glyph)
  kerningCache : List (Nat × ℚ)
  textures : List Nat
  nextTextureID : Nat
  rowHeight : Int
  textureX : Int
  textureY : Int
  pixelFormat : PixelFormat
  gfxMaxTextureSize : Option Int

/-- The rasterizer list: primary first, then the fallbacks, mirroring the
rasterizers vector whose element 0 is the constructor rasterizer. -/
def Font.rasterizers (f : Font) : List Rasterizer :=
  f.primaryRast :: f.fallbackRasts

/-- Replace the value at the first occurrence of the key, or append;
models writing through operator[] of the glyph and kerning maps. -/
def insertAssoc {α : Type} (l : List (Nat × α)) (k : Nat) (v : α) : List (Nat × α) :=
  match l with
  | [] => [(k, v)]
  | (k2, v2) :: rest =>
      if k2 = k then (k, v) :: rest else (k2, v2) :: insertAssoc rest k v

/-- Font::getNextTextureSize (Font.cpp lines 101-126): double whichever
dimension is currently smaller, when the candidate still fits below the
capped platform maximum; the platform limit defaults to 2048 when no
graphics instance exists. -/
def getNextTextureSize (gfxLimit : Option Int) (size : TextureSize) : TextureSize :=
  let maxsize : Int := match gfxLimit with
    | none => 2048
    | some l => l
  let maxwidth := min 8192 maxsize
  let maxheight := min 4096 maxsize
  if size.width * 2 ≤ maxwidth ∨ size.height * 2 ≤ maxheight then
    if size.width = size.height then
      { size with width := size.width * 2 }
    else
      { size with height := size.height * 2 }
  else
    size

/-- Member wrapper of getNextTextureSize reading the current sizes. -/
def Font.getNextTextureSize (f : Font) : TextureSize :=
  LoveFont.getNextTextureSize f.gfxMaxTextureSize ⟨f.textureWidth, f.textureHeight⟩

/-- One step of the colored-string decode loop (Font.cpp lines 443-454):
empty strings contribute nothing, a non-empty string appends its codepoints
after recording a color span at its start index. -/
def decodeStep (acc : ColoredCodepoints) (cstr : ColoredString) : ColoredCodepoints :=
  if cstr.str.isEmpty then acc
  else { cps := acc.cps ++ cstr.str,
         colors := acc.colors ++ [⟨cstr.color, acc.cps.length⟩] }

/-- The accumulation loop of the colored-string decode (Font.cpp lines
443-454): concatenate the codepoints of the input strings, recording one
color span per non-empty string at its start index. -/
def decodeFold (strs : List ColoredString) : ColoredCodepoints :=
  strs.foldl decodeStep ⟨[], []⟩

/-- Font::getCodepointsFromString for colored strings (Font.cpp lines
436-463): run the accumulation loop, then drop a single opaque-white span
at index 0. -/
def getCodepointsFromString (strs : List ColoredString) : ColoredCodepoints :=
  if strs.isEmpty then ⟨[], []⟩ else
  let codepoints := decodeFold strs
  match codepoints.colors with
  | [c] =>
      if c.index = 0 ∧ c.color = whiteColorf then
        { codepoints with colors := [] }
      else codepoints
  | _ => codepoints

/-- Font::hasGlyph (Font.cpp lines 1024-1033): some rasterizer in the chain
declares the codepoint present. -/
def Font.hasGlyph (f : Font) (glyph : Nat) : Bool :=
  f.rasterizers.any (fun r => r.hasGlyph glyph)

/-- The codepoint loop of Font::hasGlyphs: false as soon as one codepoint is
missing from every rasterizer. -/
def hasGlyphsGo (f : Font) : List Nat → Bool
  | [] => true
  | c :: rest => if ¬ f.hasGlyph c then false else hasGlyphsGo f rest

/-- Font::hasGlyphs (Font.cpp lines 1035-1059): empty text yields false,
otherwise every codepoint must be available. -/
def Font.hasGlyphs (f : Font) (text : List Nat) : Bool :=
  if text.isEmpty then false else hasGlyphsGo f text

/-- Font::setFallbacks (Font.cpp lines 1061-1074): reject fallbacks whose
primary rasterizer type differs from ours (the source throws, modelled as
none), else replace the rasterizer tail with the fallback fonts' primary
rasterizers.  No cache field is touched. -/
def Font.setFallbacks (f : Font) (fallbacks : List Font) : Option Font :=
  if fallbacks.any (fun fb => fb.primaryRast.dataType ≠ f.primaryRast.dataType) then
    none
  else
    some { f with fallbackRasts := fallbacks.map (fun fb => fb.primaryRast) }

/-- Font::getRasterizerGlyphData (Font.cpp lines 225-255): tab is
synthesized from the space glyph when the primary rasterizer lacks it (zero
bitmap size, advance scaled by the tab multiplier); otherwise the first
rasterizer in the chain having the glyph answers, defaulting to the primary
rasterizer's substitute glyph.  The dpi-scale out-parameter of the source is
returned as the second component. -/
def Font.getRasterizerGlyphData (f : Font) (glyph : Nat) : GlyphData × ℚ :=
  if glyph = 9 ∧ f.useSpacesAsTab then
    let spacegd := f.primaryRast.glyphData 32
    ({ advance := spacegd.advance * SPACES_PER_TAB,
       bearingX := spacegd.bearingX,
       bearingY := spacegd.bearingY,
       width := 0, height := 0,
       format := spacegd.format }, f.primaryRast.dpiScale)
  else
    match f.rasterizers.find? (fun r => r.hasGlyph glyph) with
    | some r => (r.glyphData glyph, r.dpiScale)
    | none => (f.primaryRast.glyphData glyph, f.primaryRast.dpiScale)

/-- Normalization of a texture coordinate to 16-bit unsigned fixed point
(normToUint16, Font.cpp lines 40-43); the C cast truncates. -/
def normToUint16 (n : ℚ) : Nat := (truncq (n * 65535)).toNat % 65536

/-- The all-zero vertex produced by the memset in Font::addGlyph. -/
def zeroVertex : GlyphVertex := ⟨0, 0, 0, 0, ⟨0, 0, 0, 0⟩⟩

/-- The four memset-zeroed quad vertices of an invisible glyph. -/
def zeroVerts : List GlyphVertex := [zeroVertex, zeroVertex, zeroVertex, zeroVertex]

/-- The new-row cursor adjustment of addGlyph (Font.cpp lines 265-273):
when the glyph can in principle fit the texture but overflows the current
row, move the cursor to the start of the next row. -/
def rowAdvance (f : Font) (w h : Int) : Font :=
  if (w + TEXTURE_PADDING * 2 < f.textureWidth ∧ h + TEXTURE_PADDING * 2 < f.textureHeight) ∧
     f.textureX + w + TEXTURE_PADDING > f.textureWidth then
    { f with textureX := TEXTURE_PADDING,
             textureY := f.textureY + f.rowHeight,
             rowHeight := TEXTURE_PADDING }
  else f

/-- The four extruded, bearing-adjusted quad vertices of a visible glyph
(Font.cpp lines 327-354); the quad is placed at the packing cursor of f1,
extruded by one pixel, and shifted by the descaled bearings. -/
def glyphQuad (f1 : Font) (gd : GlyphData) (glyphdpiscale : ℚ) : List GlyphVertex :=
  let tX : ℚ := (f1.textureX : ℚ)
  let tY : ℚ := (f1.textureY : ℚ)
  let tW : ℚ := (f1.textureWidth : ℚ)
  let tH : ℚ := (f1.textureHeight : ℚ)
  let c : Color32 := ⟨255, 255, 255, 255⟩
  let o : ℚ := 1
  let wq : ℚ := (gd.width : ℚ)
  let hq : ℚ := (gd.height : ℚ)
  let verts : List GlyphVertex := [
    ⟨-o, -o,
     normToUint16 ((tX - o) / tW), normToUint16 ((tY - o) / tH), c⟩,
    ⟨-o, (hq + o) / glyphdpiscale,
     normToUint16 ((tX - o) / tW), normToUint16 ((tY + hq + o) / tH), c⟩,
    ⟨(wq + o) / glyphdpiscale, -o,
     normToUint16 ((tX + wq + o) / tW), normToUint16 ((tY - o) / tH), c⟩,
    ⟨(wq + o) / glyphdpiscale, (hq + o) / glyphdpiscale,
     normToUint16 ((tX + wq + o) / tW), normToUint16 ((tY + hq + o) / tH), c⟩]
  verts.map (fun v => { v with
    x := v.x + gd.bearingX / glyphdpiscale,
    y := v.y - gd.bearingY / glyphdpiscale })

mutual

/-- Font::createTexture (Font.cpp lines 137-217).  If growth is possible and
a texture exists, the last texture is replaced by a larger one, the cache
generation is bumped and all cached glyphs are re-added; otherwise a fresh
texture is appended.  Pixel initialization and uploads are GPU-side effects
outside the model.  The fuel bounds the mutual recursion with addGlyph;
none models running out of fuel. -/
def createTexture : Nat → Font → Option Font
  | 0, _ => none
  | fuel+1, f =>
    let size : TextureSize := ⟨f.textureWidth, f.textureHeight⟩
    let nextsize := f.getNextTextureSize
    let recreatetexture : Prop :=
      (nextsize.width > size.width ∨ nextsize.height > size.height) ∧ f.textures ≠ []
    let size := if recreatetexture then nextsize else size
    let remaining := if recreatetexture then f.textures.dropLast else f.textures
    let texid := f.nextTextureID
    let f1 : Font := { f with
      textures := remaining ++ [texid],
      nextTextureID := texid + 1,
      textureWidth := size.width,
      textureHeight := size.height,
      rowHeight := TEXTURE_PADDING,
      textureX := TEXTURE_PADDING,
      textureY := TEXTURE_PADDING }
    if recreatetexture then
      let glyphstoadd := f1.glyphs.map Prod.fst
      let f2 : Font := { f1 with
        textureCacheID := f1.textureCacheID + 1,
        glyphs := [] }
      glyphstoadd.foldlM (fun fc g => (addGlyph fuel fc g).map Prod.snd) f2
    else
      some f1

/-- Font::addGlyph (Font.cpp lines 257-362).  Resolve the glyph data, move
the packing cursor to a new row when the row is full, recreate or append a
texture and retry when the texture is full, then build the glyph record:
invisible glyphs keep a null texture and zero vertices, visible ones are
packed at the cursor with a one-pixel UV extrusion.  The unsupported
format-conversion throw of the source is modelled as none. -/
def addGlyph : Nat → Font → Nat → Option (Glyph × Font)
  | 0, _, _ => none
  | fuel+1, f, glyph =>
    let gdp := f.getRasterizerGlyphData glyph
    let gd := gdp.1
    let glyphdpiscale := gdp.2
    let w := gd.width
    let h := gd.height
    let f1 := rowAdvance f w h
    if (w + TEXTURE_PADDING * 2 < f.textureWidth ∧ h + TEXTURE_PADDING * 2 < f.textureHeight) ∧
       f1.textureY + h + TEXTURE_PADDING > f1.textureHeight then
      match createTexture fuel f1 with
      | none => none
      | some f2 => addGlyph fuel f2 glyph
    else
      let spacing := floorq (gd.advance / glyphdpiscale + 1/2)
      if 0 < w ∧ 0 < h then
        match f1.textures.getLast? with
        | none => none
        | some tex =>
          if f1.pixelFormat ≠ gd.format ∧
             ¬ (f1.pixelFormat = PixelFormat.rgba8 ∧ gd.format = PixelFormat.la8) then
            none
          else
            let g : Glyph := ⟨some tex, spacing, glyphQuad f1 gd glyphdpiscale⟩
            let f2 : Font := { f1 with
              textureX := f1.textureX + w + TEXTURE_PADDING,
              rowHeight := max f1.rowHeight (h + TEXTURE_PADDING),
              glyphs := insertAssoc f1.glyphs glyph g }
            some (g, f2)
      else
        let g : Glyph := ⟨none, spacing, zeroVerts⟩
        some (g, { f1 with glyphs := insertAssoc f1.glyphs glyph g })

end

/-- Font::findGlyph (Font.cpp lines 364-372): answer from the glyph cache,
falling back to addGlyph on a miss. -/
def findGlyph (fuel : Nat) (f : Font) (glyph : Nat) : Option (Glyph × Font) :=
  match f.glyphs.lookup glyph with
  | some g => some (g, f)
  | none => addGlyph fuel f glyph

/-- Font::getKerning (Font.cpp lines 374-395): cached by the packed glyph
pair; on a miss, the first rasterizer having both glyphs answers with its
own dpi scale, defaulting to the primary rasterizer descaled by the font
dpi scale. -/
def Font.getKerning (f : Font) (leftglyph rightglyph : Nat) : ℚ × Font :=
  let packedglyphs := leftglyph * 2 ^ 32 + rightglyph
  match f.kerningCache.lookup packedglyphs with
  | some k => (k, f)
  | none =>
    let kdefault := floorq (f.primaryRast.kerning leftglyph rightglyph / f.dpiScale + 1/2)
    let k := match f.rasterizers.find? (fun rz => rz.hasGlyph leftglyph && rz.hasGlyph rightglyph) with
      | some rz => floorq (rz.kerning leftglyph rightglyph / rz.dpiScale + 1/2)
      | none => kdefault
    (k, { f with kerningCache := insertAssoc f.kerningCache packedglyphs k })

/-- Font::getHeight (Font.cpp lines 465-468). -/
def Font.getHeight (f : Font) : ℚ := floorq (f.height / f.dpiScale + 1/2)

/-- Font::getLineHeight (Font.cpp lines 983-986). -/
def Font.getLineHeight (f : Font) : ℚ := f.lineHeight

/-- Font::getAscent (Font.cpp lines 1003-1006). -/
def Font.getAscent (f : Font) : ℚ := floorq (f.primaryRast.ascent / f.dpiScale + 1/2)

/-- Font::getBaseline (Font.cpp lines 1013-1022); 1.25 is the magic
truetype line height. -/
def Font.getBaseline (f : Font) : ℚ :=
  let ascent := f.getAscent
  if ascent ≠ 0 then ascent
  else if f.primaryRast.dataType = RasterizerDataType.truetype then
    floorq (f.getHeight / (5/4) + 1/2)
  else 0

/-- The texture-size selection loop of the constructor (Font.cpp lines
67-79), with fuel; the loop strictly grows the size up to the capped
maximum, so any fuel above the doubling-chain length is exact. -/
def initSizeLoop (gfxLimit : Option Int) (fontheight : ℚ) : Nat → TextureSize → TextureSize
  | 0, size => size
  | fuel+1, size =>
    if fontheight * (4/5) * fontheight * 30 ≤ ((size.width * size.height : Int) : ℚ) then size
    else
      let nextsize := getNextTextureSize gfxLimit size
      if nextsize.width ≤ size.width ∧ nextsize.height ≤ size.height then size
      else initSizeLoop gfxLimit fontheight fuel nextsize

/-- The Font constructor state just before loadVolatile creates the first
texture (Font.cpp lines 50-91 plus the cache-generation bump of line 130):
the starting texture size is selected by the heuristic loop, the pixel
format is negotiated (la8Supported models the external graphics capability
query), and tab synthesis is recorded when the rasterizer lacks a tab. -/
def Font.preVolatile (r : Rasterizer) (gfxLimit : Option Int) (la8Supported : Bool) : Font :=
  let size0 := initSizeLoop gfxLimit r.height 100 ⟨128, 128⟩
  let fmt0 := (r.glyphData 32).format
  let fmt := if fmt0 = PixelFormat.la8 ∧ ¬ la8Supported then PixelFormat.rgba8 else fmt0
  { primaryRast := r, fallbackRasts := [],
    height := r.height, lineHeight := 1,
    textureWidth := size0.width, textureHeight := size0.height,
    dpiScale := r.dpiScale,
    useSpacesAsTab := ! r.hasGlyph 9,
    textureCacheID := 1, glyphs := [], kerningCache := [],
    textures := [], nextTextureID := 0,
    rowHeight := 0, textureX := 0, textureY := 0,
    pixelFormat := fmt, gfxMaxTextureSize := gfxLimit }

/-- The Font constructor (Font.cpp lines 50-94) followed by loadVolatile
(lines 128-135), which creates the first texture.  With no existing
texture createTexture cannot recurse, so fuel 1 is exact; the none branch
is unreachable. -/
def Font.ofRasterizer (r : Rasterizer) (gfxLimit : Option Int) (la8Supported : Bool) : Font :=
  match createTexture 1 (Font.preVolatile r gfxLimit la8Supported) with
  | some f2 => f2
  | none => Font.preVolatile r gfxLimit la8Supported

/-- The advance a glyph record is assigned when resolved (Font.cpp line
289); it depends only on the rasterizer configuration. -/
def spacingOf (f : Font) (glyph : Nat) : ℚ :=
  let gdp := f.getRasterizerGlyphData glyph
  floorq (gdp.1.advance / gdp.2 + 1/2)

/-- The kerning value the cache stores for a pair (Font.cpp lines 382-391). -/
def kerningOf (f : Font) (leftglyph rightglyph : Nat) : ℚ :=
  match f.rasterizers.find? (fun rz => rz.hasGlyph leftglyph && rz.hasGlyph rightglyph) with
  | some rz => floorq (rz.kerning leftglyph rightglyph / rz.dpiScale + 1/2)
  | none => floorq (f.primaryRast.kerning leftglyph rightglyph / f.dpiScale + 1/2)

/-- Glyph-cache consistency: every cached record carries the spacing its
codepoint would be assigned on a fresh resolution. -/
def glyphWF (f : Font) : Prop :=
  ∀ p ∈ f.glyphs, p.2.spacing = spacingOf f p.1

/-- Kerning-cache consistency: every entry is keyed by a packed pair with an
in-range right half and stores that pair's kerning value. -/
def kerningWF (f : Font) : Prop :=
  ∀ p ∈ f.kerningCache, ∃ lg rg, rg < 2 ^ 32 ∧ p.1 = lg * 2 ^ 32 + rg ∧ p.2 = kerningOf f lg rg

/-- The configuration fields that the caching and layout paths read but
never write. -/
def sameConfig (f f2 : Font) : Prop :=
  f2.primaryRast = f.primaryRast ∧ f2.fallbackRasts = f.fallbackRasts ∧
  f2.dpiScale = f.dpiScale ∧ f2.useSpacesAsTab = f.useSpacesAsTab ∧
  f2.height = f.height ∧ f2.lineHeight = f.lineHeight ∧
  f2.pixelFormat = f.pixelFormat ∧ f2.gfxMaxTextureSize = f.gfxMaxTextureSize

/-- The getline-based line splitting of Font::getWidth: istringstream
getline yields the segments between newline bytes and produces no final
segment after a trailing newline. -/
def getlineSplit (s : List Nat) : List (List Nat) :=
  let parts := s.splitOn 10
  if s.getLast? = some 10 then parts.dropLast else parts

/-- The per-line accumulation loop of Font::getWidth (Font.cpp lines
759-778): carriage returns are skipped, every other codepoint adds its
spacing plus the kerning against the previous glyph. -/
def getWidthLineGo (fuel : Nat) : Font → List Nat → Nat → ℚ → Option (ℚ × Font)
  | f, [], _, width => some (width, f)
  | f, c :: rest, prevglyph, width =>
    if c = 13 then getWidthLineGo fuel f rest prevglyph width
    else
      match findGlyph fuel f c with
      | none => none
      | some gf =>
        let kp := gf.2.getKerning prevglyph c
        getWidthLineGo fuel kp.2 rest c (width + gf.1.spacing + kp.1)

/-- Font::getWidth for strings (Font.cpp lines 749-789): the maximum of the
per-line widths, 0 for the empty string.  The int accumulator of the source
is exact because the spacing and kerning floats are integer-valued. -/
def Font.getWidth (fuel : Nat) (f : Font) (str : List Nat) : Option (ℚ × Font) :=
  if str.isEmpty then some (0, f) else
  (getlineSplit str).foldlM
    (fun (acc : ℚ × Font) line =>
      (getWidthLineGo fuel acc.2 line 0 0).map (fun p => (max acc.1 p.1, p.2)))
    (0, f)

/-- The color-cursor advance at the top of the getWrap loop (Font.cpp lines
825-830): move to the next color span when its start index is the current
position, marking that the color must be re-emitted on the next consume. -/
def advanceColor (colors : List IndexedColor) (i : Nat) (curcolor : Colorf)
    (curcolori : Int) (addcurcolor : Bool) : Colorf × Int × Bool :=
  if curcolori < (colors.length : Int) - 1 then
    match colors.get? (curcolori + 1).toNat with
    | some ic =>
        if ic.index = i then (ic.color, curcolori + 1, true)
        else (curcolor, curcolori, addcurcolor)
    | none => (curcolor, curcolori, addcurcolor)
  else (curcolor, curcolori, addcurcolor)

/-- The downward color-rewind loop of getWrap (Font.cpp lines 884-892):
find the highest span starting at or before the last space and restore its
color; the loop counter k stands for span index k-1. -/
def rewindColorGo (colors : List IndexedColor) (lastspaceindex : Int)
    (curcolor : Colorf) (curcolori : Int) : Nat → Colorf × Int
  | 0 => (curcolor, curcolori)
  | k+1 =>
    match colors.get? k with
    | some ic =>
        if (ic.index : Int) ≤ lastspaceindex then (ic.color, (k : Int))
        else rewindColorGo colors lastspaceindex curcolor curcolori k
    | none => rewindColorGo colors lastspaceindex curcolor curcolori k

/-- The pop-back loop dropping the codepoints after the last space
(Font.cpp lines 877-878); the trailing space itself is kept. -/
def dropTrailingNonSpaces (l : List Nat) : List Nat :=
  (l.reverse.dropWhile (fun c => c != 32)).reverse

/-- The pop-back loop dropping the color spans past the shortened line
(Font.cpp lines 880-881). -/
def dropTrailingColors (colors : List IndexedColor) (len : Nat) : List IndexedColor :=
  (colors.reverse.dropWhile (fun ic => decide (len ≤ ic.index))).reverse

/-- Result of processing codepoints until a line closes: either the line
closed (by a newline or a wrap) with the absolute index to resume at and
the color state to carry over, or the input ran out and the final line is
returned. -/
inductive WrapStep where
  | closed (line : ColoredCodepoints) (lw : ℚ) (next : Nat)
      (curcolor : Colorf) (curcolori : Int) (f : Font) : WrapStep
  | last (line : ColoredCodepoints) (lw : ℚ) (f : Font) : WrapStep

/-- One line of the Font::getWrap loop (Font.cpp lines 818-942), processing
the remaining codepoints rest, the suffix of the input starting at absolute
index i.  The state parameters mirror the source locals, in order: width,
widthbeforelastspace, widthoftrailingspace, prevglyph, lastspaceindex,
wline, curcolor, addcurcolor, curcolori.  The wrap branches close the line
exactly as the source does: an oversized codepoint on an empty line is
skipped completely and an empty line is emitted; with a known last space
the line is rewound to it and processing resumes after that space;
otherwise the line closes unchanged and the same index is reprocessed. -/
def getWrapLine (fuel : Nat) (colors : List IndexedColor) (wraplimit : ℚ) :
    Font → List Nat → Nat → ℚ → ℚ → ℚ → Nat → Int → ColoredCodepoints →
    Colorf → Bool → Int → Option WrapStep
  | f, [], _, width, _, widthoftrailingspace, _, _, wline, _, _, _ =>
      some (WrapStep.last wline (width - widthoftrailingspace) f)
  | f, c :: rest, i, width, widthbeforelastspace, widthoftrailingspace,
    prevglyph, lastspaceindex, wline, curcolor, addcurcolor, curcolori =>
    let cstate := advanceColor colors i curcolor curcolori addcurcolor
    let curcolor := cstate.1
    let curcolori := cstate.2.1
    let addcurcolor := cstate.2.2
    if c = 10 then
      some (WrapStep.closed wline (width - widthoftrailingspace) (i+1) curcolor curcolori f)
    else if c = 13 then
      getWrapLine fuel colors wraplimit f rest (i+1) width widthbeforelastspace
        widthoftrailingspace prevglyph lastspaceindex wline curcolor addcurcolor curcolori
    else
      match findGlyph fuel f c with
      | none => none
      | some gf =>
        let kp := gf.2.getKerning prevglyph c
        let f2 := kp.2
        let charwidth := gf.1.spacing + kp.1
        let newwidth := width + charwidth
        if c ≠ 32 ∧ newwidth > wraplimit then
          if wline.cps = [] then
            some (WrapStep.closed wline width (i+1) curcolor curcolori f2)
          else if lastspaceindex ≠ -1 then
            let newcps := dropTrailingNonSpaces wline.cps
            let newcolors := dropTrailingColors wline.colors newcps.length
            let rc := rewindColorGo colors lastspaceindex curcolor curcolori (curcolori + 1).toNat
            some (WrapStep.closed ⟨newcps, newcolors⟩ widthbeforelastspace
              (lastspaceindex.toNat + 1) rc.1 rc.2 f2)
          else
            some (WrapStep.closed wline width i curcolor curcolori f2)
        else
          let wbls2 := if prevglyph ≠ 32 ∧ c = 32 then width else widthbeforelastspace
          let wcolors2 :=
            if addcurcolor then wline.colors ++ [⟨curcolor, wline.cps.length⟩]
            else wline.colors
          let addcurcolor2 := if addcurcolor then false else addcurcolor
          let wline2 : ColoredCodepoints := ⟨wline.cps ++ [c], wcolors2⟩
          let lastspaceindex2 := if c = 32 then (i : Int) else lastspaceindex
          let wots2 :=
            if c = 32 then widthoftrailingspace + charwidth
            else if c ≠ 10 then 0 else widthoftrailingspace
          getWrapLine fuel colors wraplimit f2 rest (i+1) newwidth wbls2
            wots2 c lastspaceindex2 wline2 curcolor addcurcolor2 curcolori

/-- The outer structure of Font::getWrap (Font.cpp lines 797-950): produce
lines until the input is exhausted.  Each closed line resumes at the
returned absolute index with fresh per-line state and addcurcolor set; the
fuel bounds the number of produced lines. -/
def getWrapGo (atlasfuel : Nat) (cps : List Nat) (colors : List IndexedColor) (wraplimit : ℚ) :
    Nat → Font → Nat → Colorf → Int → Bool → List ColoredCodepoints → List ℚ →
    Option (List ColoredCodepoints × List ℚ × Font)
  | 0, _, _, _, _, _, _, _ => none
  | fuel+1, f, i, curcolor, curcolori, addcurcolor, lines, widths =>
    match getWrapLine atlasfuel colors wraplimit f (cps.drop i) i 0 0 0 0 (-1)
        ⟨[], []⟩ curcolor addcurcolor curcolori with
    | none => none
    | some (WrapStep.last line lw f2) => some (lines ++ [line], widths ++ [lw], f2)
    | some (WrapStep.closed line lw next cc cci f2) =>
        getWrapGo atlasfuel cps colors wraplimit fuel f2 next cc cci true
          (lines ++ [line]) (widths ++ [lw])

/-- Font::getWrap on codepoints (Font.cpp lines 797-950); the line count is
bounded by the input length, so the outer fuel is exact. -/
def Font.getWrap (fuel : Nat) (f : Font) (codepoints : ColoredCodepoints) (wraplimit : ℚ) :
    Option (List ColoredCodepoints × List ℚ × Font) :=
  getWrapGo fuel codepoints.cps codepoints.colors wraplimit
    (codepoints.cps.length + 2) f 0 whiteColorf (-1) false [] []

/-- A 2-component vector (love::Vector2) with float components. -/
structure Vector2 where
  x : ℚ
  y : ℚ
deriving DecidableEq

/-- The per-index color update of generateVertices (Font.cpp lines
502-516): clamp the span color, blend it against the constant color in
linear space (componentwise product), and convert to bytes. -/
def genColorStep (ops : ColorOps) (colors : List IndexedColor) (linearconstantcolor : Colorf)
    (i : Nat) (curcolor : Color32) (curcolori : Int) : Color32 × Int :=
  if curcolori + 1 < (colors.length : Int) then
    match colors.get? (curcolori + 1).toNat with
    | some ic =>
        if ic.index = i then
          let c0 := ic.color
          let c1 : Colorf := ⟨min (max c0.r 0) 1, min (max c0.g 0) 1,
                              min (max c0.b 0) 1, min (max c0.a 0) 1⟩
          let c2 := ops.gammaCorrect c1
          let c3 : Colorf := ⟨c2.r * linearconstantcolor.r, c2.g * linearconstantcolor.g,
                              c2.b * linearconstantcolor.b, c2.a * linearconstantcolor.a⟩
          let c4 := ops.unGammaCorrect c3
          (ops.toColor32 c4, curcolori + 1)
        else (curcolor, curcolori)
    | none => (curcolor, curcolori)
  else (curcolor, curcolori)

/-- Increment the vertex count of the last draw command; the source writes
through commands.back(), which exists at every use site. -/
def bumpLastCommand (cmds : List DrawCommand) : List DrawCommand :=
  match cmds.getLast? with
  | none => cmds
  | some c => cmds.dropLast ++ [{ c with vertexcount := c.vertexcount + 4 }]

/-- The draw-command comparator of generateVertices (Font.cpp lines
591-598): texture identity first, then start vertex. -/
def drawsort (a b : DrawCommand) : Bool :=
  if a.texture ≠ b.texture then decide (a.texture < b.texture)
  else decide (a.startvertex < b.startvertex)

/-- Model of the std::sort call: a sorted permutation with respect to the
strict comparator, realized as a merge sort by the complement non-strict
order (a list is acceptable std::sort output exactly when no pair is
inverted under the strict comparator). -/
def sortCommands (cmds : List DrawCommand) : List DrawCommand :=
  cmds.mergeSort (fun a b => ! drawsort b a)

/-- The main loop of Font::generateVertices (Font.cpp lines 498-589).
State parameters, in order: i, dx, dy, maxwidth, commands, vertices,
prevglyph, curcolori, curcolor.  When glyph resolution bumps the texture
cache generation, the walk restarts from index 0 with the output cleared:
vertices truncated to the entry size, commands dropped, pen and color
cursor reset (Font.cpp lines 534-551).  The loop fuel decreases every
iteration; a successful run returns the commands (unsorted), the vertex
buffer, the final pen position, the running maximum width, and the font. -/
def genVertsGo (ops : ColorOps) (atlasfuel : Nat) (cps : List Nat) (colors : List IndexedColor)
    (constantcolor : Colorf) (linearconstantcolor : Colorf) (extra_spacing : ℚ)
    (offx offy : ℚ) (heightoffset : ℚ) (vertstartsize : Nat) :
    Nat → Font → Nat → ℚ → ℚ → Int → List DrawCommand → List GlyphVertex →
    Nat → Int → Color32 →
    Option (List DrawCommand × List GlyphVertex × ℚ × ℚ × Int × Font)
  | 0, _, _, _, _, _, _, _, _, _, _ => none
  | fuel+1, f, i, dx, dy, maxwidth, commands, vertices, prevglyph, curcolori, curcolor =>
    match cps.get? i with
    | none => some (commands, vertices, dx, dy, maxwidth, f)
    | some g =>
      let cc := genColorStep ops colors linearconstantcolor i curcolor curcolori
      let curcolor2 := cc.1
      let curcolori2 := cc.2
      if g = 10 then
        let maxwidth2 := if dx > (maxwidth : ℚ) then truncq dx else maxwidth
        genVertsGo ops atlasfuel cps colors constantcolor linearconstantcolor extra_spacing
          offx offy heightoffset vertstartsize fuel f (i+1) offx
          (dy + floorq (f.getHeight * f.getLineHeight + 1/2)) maxwidth2 commands vertices
          0 curcolori2 curcolor2
      else if g = 13 then
        genVertsGo ops atlasfuel cps colors constantcolor linearconstantcolor extra_spacing
          offx offy heightoffset vertstartsize fuel f (i+1) dx dy maxwidth commands vertices
          prevglyph curcolori2 curcolor2
      else
        let cacheid := f.textureCacheID
        match findGlyph atlasfuel f g with
        | none => none
        | some gf =>
          let glyph := gf.1
          let f2 := gf.2
          if cacheid ≠ f2.textureCacheID then
            genVertsGo ops atlasfuel cps colors constantcolor linearconstantcolor extra_spacing
              offx offy heightoffset vertstartsize fuel f2 0 offx offy 0 []
              (vertices.take vertstartsize) 0 (-1) (ops.toColor32 constantcolor)
          else
            let dx2 := dx + (f2.getKerning prevglyph g).1
            let f3 := (f2.getKerning prevglyph g).2
            let pushres : List DrawCommand × List GlyphVertex :=
              match glyph.texture with
              | some tex =>
                let newverts := glyph.vertices.map (fun v =>
                  { v with x := v.x + dx2, y := v.y + dy + heightoffset, color := curcolor2 })
                let vertices2 := vertices ++ newverts
                let commands2 :=
                  match commands.getLast? with
                  | none => commands ++ [⟨vertices2.length - 4, 0, tex⟩]
                  | some cmd =>
                      if cmd.texture ≠ tex then commands ++ [⟨vertices2.length - 4, 0, tex⟩]
                      else commands
                (bumpLastCommand commands2, vertices2)
              | none => (commands, vertices)
            let dx3 := dx2 + glyph.spacing
            let dx4 := if g = 32 ∧ extra_spacing ≠ 0 then floorq (dx3 + extra_spacing) else dx3
            genVertsGo ops atlasfuel cps colors constantcolor linearconstantcolor extra_spacing
              offx offy heightoffset vertstartsize fuel f3 (i+1) dx4 dy maxwidth pushres.1
              pushres.2 g curcolori2 curcolor2

/-- Font::generateVertices (Font.cpp lines 470-612): run the walk, then
sort the draw commands and produce the text metrics. -/
def generateVertices (ops : ColorOps) (atlasfuel loopfuel : Nat) (f : Font)
    (codepoints : ColoredCodepoints) (constantcolor : Colorf)
    (vertices : List GlyphVertex) (extra_spacing : ℚ) (offset : Vector2) :
    Option (List DrawCommand × List GlyphVertex × TextInfo × Font) :=
  let heightoffset :=
    if f.primaryRast.dataType = RasterizerDataType.truetype then f.getBaseline else 0
  let linearconstantcolor := ops.gammaCorrect constantcolor
  match genVertsGo ops atlasfuel codepoints.cps codepoints.colors constantcolor
      linearconstantcolor extra_spacing offset.x offset.y heightoffset vertices.length
      loopfuel f 0 offset.x offset.y 0 [] vertices 0 (-1) (ops.toColor32 constantcolor) with
  | none => none
  | some (commands, verts, dx, dy, maxwidth, f2) =>
    let commands := sortCommands commands
    let maxwidth2 := if dx > (maxwidth : ℚ) then truncq dx else maxwidth
    let info : TextInfo := ⟨truncq ((maxwidth2 : ℚ) - offset.x),
      truncq (((truncq dy : ℚ) +
        (if dx > 0 then floorq (f2.getHeight * f2.getLineHeight + 1/2) else 0)) - offset.y)⟩
    some (commands, verts, info, f2)

/-- The codepoints of a text that survive into wrapped lines: newlines
close lines without being emitted and carriage returns are skipped. -/
def visibleCps (l : List Nat) : List Nat :=
  l.filter (fun c => c != 10 && c != 13)

/-- The vertex indices covered by a draw command. -/
def cmdRange (c : DrawCommand) : List Nat := List.range' c.startvertex c.vertexcount

/-- Draw commands forming a gapless chain of non-empty ranges from a to b. -/
def cmdChain : List DrawCommand → Nat → Nat → Prop
  | [], a, b => a = b
  | c :: rest, a, b => c.startvertex = a ∧ 0 < c.vertexcount ∧ cmdChain rest (a + c.vertexcount) b

/-- Strictly ascending by texture identity, then by start vertex. -/
def cmdLexLt (a b : DrawCommand) : Prop :=
  a.texture < b.texture ∨ (a.texture = b.texture ∧ a.startvertex < b.startvertex)

/-- Accumulated width of a codepoint list continuing from a previous glyph:
each codepoint adds its spacing plus the kerning against its predecessor,
exactly the accumulation of the getWidth loop. -/
def lineWidthFrom (f : Font) (prevglyph : Nat) : List Nat → ℚ
  | [] => 0
  | c :: rest => spacingOf f c + kerningOf f prevglyph c + lineWidthFrom f c rest

/-- The width formula as the claim states it: the sum of the advances plus
the kerning over adjacent codepoint pairs, with no leading kerning term. -/
def claimWidth (f : Font) : List Nat → ℚ
  | [] => 0
  | c :: rest => spacingOf f c + lineWidthFrom f c rest

/-- The single-opaque-white-span condition tested by the decode
optimization (Font.cpp lines 456-462). -/
def singleWhiteSpan (colors : List IndexedColor) : Bool :=
  match colors with
  | [c] => decide (c.index = 0 ∧ c.color = whiteColorf)
  | _ => false

/-- Quad-shape consistency of the glyph cache: every cached record carries
exactly the four quad vertices addGlyph builds. -/
def glyphQuadWF (f : Font) : Prop :=
  ∀ p ∈ f.glyphs, p.2.vertices.length = 4

/-- What the atlas path leaves untouched or preserves: the configuration,
the kerning cache, and the glyph-cache invariants. -/
def preservesCaches (f f2 : Font) : Prop :=
  sameConfig f f2 ∧ f2.kerningCache = f.kerningCache ∧
  (glyphWF f → glyphWF f2) ∧ (glyphQuadWF f → glyphQuadWF f2)

/- Concrete rasterizers and fonts used by the witnesses and
counterexamples below. -/

/-- Identity color utilities for concrete runs. -/
def idOps : ColorOps := ⟨id, id, fun _ => ⟨255, 255, 255, 255⟩⟩

/-- A rasterizer whose glyphs are invisible (zero-size bitmaps) with
advance 10 and no kerning. -/
def wRast : Rasterizer :=
  ⟨fun _ => true, fun _ => ⟨10, 0, 0, 0, 0, PixelFormat.rgba8⟩, fun _ _ => 0,
   10, 8, 2, 1, RasterizerDataType.image⟩

/-- The font constructed from wRast. -/
def wFont : Font := Font.ofRasterizer wRast (some 2048) true

/-- A rasterizer reporting kerning 7 against the null glyph 0 and advance
3, exhibiting the leading kerning term of the getWidth loop. -/
def kRast : Rasterizer :=
  ⟨fun _ => true, fun _ => ⟨3, 0, 0, 0, 0, PixelFormat.rgba8⟩,
   fun lg _ => if lg = 0 then 7 else 0,
   10, 8, 2, 1, RasterizerDataType.image⟩

/-- The font constructed from kRast. -/
def kFont : Font := Font.ofRasterizer kRast (some 2048) true

/-- A rasterizer with small visible glyphs (8 by 8 bitmaps). -/
def vRast : Rasterizer :=
  ⟨fun _ => true, fun _ => ⟨10, 2, 3, 8, 8, PixelFormat.rgba8⟩, fun _ _ => 0,
   10, 8, 2, 1, RasterizerDataType.image⟩

/-- The font constructed from vRast. -/
def vFont : Font := Font.ofRasterizer vRast (some 2048) true

/-- A rasterizer with large visible glyphs (100 by 100 bitmaps), used to
force an atlas recreation. -/
def c4Rast : Rasterizer :=
  ⟨fun _ => true, fun _ => ⟨10, 0, 0, 100, 100, PixelFormat.rgba8⟩, fun _ _ => 0,
   10, 8, 2, 1, RasterizerDataType.image⟩

/-- A font state mid-walk whose packing cursor sits low enough in its
128 by 128 texture that the next 100 by 100 glyph forces the texture to be
recreated at 256 by 128, bumping the cache generation. -/
def c4Font : Font := {
  primaryRast := c4Rast, fallbackRasts := [], height := 10, lineHeight := 1,
  textureWidth := 128, textureHeight := 128, dpiScale := 1, useSpacesAsTab := false,
  textureCacheID := 1, glyphs := [], kerningCache := [], textures := [0],
  nextTextureID := 1, rowHeight := 1, textureX := 1, textureY := 60,
  pixelFormat := PixelFormat.rgba8, gfxMaxTextureSize := some 2048 }

/-- A rasterizer lacking the tab codepoint, with a space advance of 10 at
dpi scale 2. -/
def c7Rast : Rasterizer :=
  ⟨fun c => c != 9, fun _ => ⟨10, 1, 1, 0, 0, PixelFormat.rgba8⟩, fun _ _ => 0,
   10, 8, 2, 2, RasterizerDataType.image⟩

/-- A glyph record standing for a previously resolved codepoint. -/
def c9Glyph : Glyph := ⟨some 0, 10, zeroVerts⟩

/-- A rasterizer that lacks codepoint 65. -/
def c9Rast : Rasterizer :=
  ⟨fun c => c != 65, fun _ => ⟨10, 0, 0, 0, 0, PixelFormat.rgba8⟩, fun _ _ => 0,
   10, 8, 2, 1, RasterizerDataType.image⟩

/-- A rasterizer that has every codepoint, used as a fallback providing
codepoint 65. -/
def c9FallbackRast : Rasterizer :=
  ⟨fun _ => true, fun _ => ⟨20, 0, 0, 0, 0, PixelFormat.rgba8⟩, fun _ _ => 0,
   10, 8, 2, 1, RasterizerDataType.image⟩

/-- A font whose glyph cache already holds a record for codepoint 65 even
though its own rasterizer lacks it. -/
def c9Font : Font := {
  primaryRast := c9Rast, fallbackRasts := [], height := 10, lineHeight := 1,
  textureWidth := 128, textureHeight := 128, dpiScale := 1, useSpacesAsTab := false,
  textureCacheID := 1, glyphs := [(65, c9Glyph)], kerningCache := [(65, 3)],
  textures := [0], nextTextureID := 1, rowHeight := 1, textureX := 1, textureY := 1,
  pixelFormat := PixelFormat.rgba8, gfxMaxTextureSize := some 2048 }

/-- The fallback font wrapping c9FallbackRast. -/
def c9Fallback : Font := Font.ofRasterizer c9FallbackRast (some 2048) true

/- Theorems.  Helper lemmas come first, the claim theorems are named
c1 .. c10 with their witnesses and counterexamples. -/

/-- The invariant of the texture growth policy: the shape follows the
alternating doubling chain (width equals height or twice the height) and
both dimensions stay within the capped platform maximum, provided the
platform maximum admits the 128 by 128 start. -/
def sizeInv (gfxLimit : Option Int) (s : TextureSize) : Prop :=
  (s.width = s.height ∨ s.width = 2 * s.height) ∧
  128 ≤ s.height ∧ s.height ≤ s.width ∧
  s.width ≤ min 8192 (gfxLimit.getD 2048) ∧ s.height ≤ min 4096 (gfxLimit.getD 2048)

/-- One growth step preserves the size invariant. -/
theorem nextSize_step (gfxLimit : Option Int) (s : TextureSize)
    (h128 : 128 ≤ gfxLimit.getD 2048) (hs : sizeInv gfxLimit s) :
    sizeInv gfxLimit (getNextTextureSize gfxLimit s) := by
  obtain ⟨hshape, hh, hhw, hw, hht⟩ := hs
  cases gfxLimit <;>
    · simp only [getNextTextureSize, Option.getD] at *
      split_ifs <;> constructor <;> simp_all <;> omega

/-- Every size reachable from 128 by 128 satisfies the size invariant. -/
theorem nextSize_reachable (gfxLimit : Option Int) (h128 : 128 ≤ gfxLimit.getD 2048)
    (n : Nat) : sizeInv gfxLimit ((getNextTextureSize gfxLimit)^[n] ⟨128, 128⟩) := by
  induction n with
  | zero =>
      rw [Function.iterate_zero_apply]
      refine ⟨Or.inl rfl, by norm_num, by norm_num, ?_, ?_⟩ <;> simp <;> omega
  | succ n ih =>
      rw [Function.iterate_succ_apply']
      exact nextSize_step gfxLimit _ h128 ih

/-- C5 (amended): provided the platform-reported maximum texture size is at
least 128, every size reachable from the 128 by 128 start keeps the
alternating doubling shape (width equals height or twice the height) with
both dimensions within min(8192, platform max) by min(4096, platform max);
whenever a doubled candidate fits, the step doubles the width when the
dimensions are equal and the height otherwise; once no doubling fits, the
returned size equals the current size. -/
theorem c5_growth_sequence (gfxLimit : Option Int)
    (h128 : 128 ≤ gfxLimit.getD 2048) (n : Nat) :
    (((getNextTextureSize gfxLimit)^[n] ⟨128, 128⟩).width ≤ min 8192 (gfxLimit.getD 2048) ∧
     ((getNextTextureSize gfxLimit)^[n] ⟨128, 128⟩).height ≤ min 4096 (gfxLimit.getD 2048) ∧
     (((getNextTextureSize gfxLimit)^[n] ⟨128, 128⟩).width =
        ((getNextTextureSize gfxLimit)^[n] ⟨128, 128⟩).height ∨
      ((getNextTextureSize gfxLimit)^[n] ⟨128, 128⟩).width =
        2 * ((getNextTextureSize gfxLimit)^[n] ⟨128, 128⟩).height)) ∧
    (∀ s : TextureSize,
      (s.width * 2 ≤ min 8192 (gfxLimit.getD 2048) ∨
       s.height * 2 ≤ min 4096 (gfxLimit.getD 2048)) →
      getNextTextureSize gfxLimit s =
        (if s.width = s.height then ⟨s.width * 2, s.height⟩ else ⟨s.width, s.height * 2⟩)) ∧
    (∀ s : TextureSize,
      ¬ (s.width * 2 ≤ min 8192 (gfxLimit.getD 2048) ∨
         s.height * 2 ≤ min 4096 (gfxLimit.getD 2048)) →
      getNextTextureSize gfxLimit s = s) := by
  refine ⟨?_, ?_, ?_⟩
  · obtain ⟨hs, hh, hhw, hw, hht⟩ := nextSize_reachable gfxLimit h128 n
    exact ⟨hw, hht, hs⟩
  · intro s hs
    cases gfxLimit <;>
      · simp only [getNextTextureSize, Option.getD] at hs ⊢
        rw [if_pos hs]
  · intro s hs
    cases gfxLimit <;>
      · simp only [getNextTextureSize, Option.getD] at hs ⊢
        rw [if_neg hs]

/-- C5 witness: with platform maximum 2048, three growth steps from
128 by 128 reach 512 by 256, and the theorem applies there. -/
theorem c5_growth_sequence_witness :
    (getNextTextureSize (some 2048))^[3] ⟨128, 128⟩ = ⟨512, 256⟩ ∧
    ((getNextTextureSize (some 2048))^[3] ⟨128, 128⟩).width ≤
      min 8192 ((some (2048:Int)).getD 2048) :=
  ⟨by decide, (c5_growth_sequence (some 2048) (by decide) 3).1.1⟩

/-- C5 counterexample: with a platform maximum of 64, the reachable size
128 by 128 exceeds the claimed min(8192, platform max) bound, so the claim
fails without a lower bound on the platform maximum. -/
theorem c5_counterexample :
    ¬ (((getNextTextureSize (some 64))^[1] ⟨128, 128⟩).width ≤
        min 8192 ((some (64:Int)).getD 2048)) := by
  decide

/-- The decode fold, generalized over the accumulator: span indices stay
strictly increasing below the codepoint count, and exactly one span is
added per non-empty input string. -/
theorem decodeFold_go_spec (strs : List ColoredString) :
    ∀ acc : ColoredCodepoints,
      List.Chain' (fun a b => a.index < b.index) acc.colors →
      (∀ ic ∈ acc.colors, ic.index < acc.cps.length) →
      List.Chain' (fun a b => a.index < b.index) (strs.foldl decodeStep acc).colors ∧
      (strs.foldl decodeStep acc).colors.length =
        acc.colors.length + (strs.filter (fun cs => ! cs.str.isEmpty)).length ∧
      (∀ ic ∈ (strs.foldl decodeStep acc).colors,
        ic.index < (strs.foldl decodeStep acc).cps.length) := by
  induction strs with
  | nil => intro acc h1 h2; exact ⟨h1, by simp, h2⟩
  | cons cs rest ih =>
      intro acc h1 h2
      simp only [List.foldl_cons]
      by_cases he : cs.str.isEmpty
      · have hstep : decodeStep acc cs = acc := by simp [decodeStep, he]
        rw [hstep]
        have := ih acc h1 h2
        simp only [List.filter_cons, he]
        simpa using this
      · have hstep : decodeStep acc cs =
            ⟨acc.cps ++ cs.str, acc.colors ++ [⟨cs.color, acc.cps.length⟩]⟩ := by
          simp [decodeStep, he]
        rw [hstep]
        have hch : List.Chain' (fun a b => a.index < b.index)
            (acc.colors ++ [⟨cs.color, acc.cps.length⟩]) := by
          rw [List.chain'_append]
          refine ⟨h1, List.chain'_singleton _, ?_⟩
          intro x hx y hy
          simp only [List.head?_cons, Option.mem_def, Option.some.injEq] at hy
          subst hy
          exact h2 x (List.mem_of_mem_getLast? hx)
        have hidx : ∀ ic ∈ acc.colors ++ [⟨cs.color, acc.cps.length⟩],
            ic.index < (acc.cps ++ cs.str).length := by
          intro ic hic
          rcases List.mem_append.mp hic with h | h
          · have := h2 ic h
            simp only [List.length_append]
            omega
          · simp only [List.mem_singleton] at h
            subst h
            simp only [List.length_append]
            have : 0 < cs.str.length := by
              cases hcs : cs.str with
              | nil => simp [hcs] at he
              | cons a t => simp
            omega
        have := ih ⟨acc.cps ++ cs.str, acc.colors ++ [⟨cs.color, acc.cps.length⟩]⟩ hch hidx
        simp only [List.filter_cons, he]
        refine ⟨this.1, ?_, this.2.2⟩
        rw [this.2.1]
        simp
        omega

/-- C6: the decode keeps one strictly increasing color span per non-empty
input string, except that a single opaque-white span at index 0 is cleared
to the empty span list. -/
theorem c6_decode_spans (strs : List ColoredString) :
    (getCodepointsFromString strs).colors =
      (if singleWhiteSpan (decodeFold strs).colors then [] else (decodeFold strs).colors) ∧
    List.Chain' (fun a b => a.index < b.index) (decodeFold strs).colors ∧
    (decodeFold strs).colors.length = (strs.filter (fun cs => ! cs.str.isEmpty)).length := by
  have hspec := decodeFold_go_spec strs ⟨[], []⟩ (by simp) (by simp)
  refine ⟨?_, hspec.1, by simpa using hspec.2.1⟩
  unfold getCodepointsFromString
  cases hstrs : strs with
  | nil =>
      simp [decodeFold, singleWhiteSpan]
  | cons a l =>
      simp only [List.isEmpty_cons, Bool.false_eq_true, if_false]
      rcases hcol : (decodeFold (a :: l)).colors with _ | ⟨c, _ | ⟨d, t⟩⟩ <;>
        simp only [singleWhiteSpan, hcol]
      · rfl
      · by_cases hc : c.index = 0 ∧ c.color = whiteColorf
        · simp [hc, hcol]
        · simp [hc, hcol]
      · rfl

/-- The codepoint loop of hasGlyphs agrees with the all-quantifier over the
codepoints. -/
theorem hasGlyphsGo_eq_all (f : Font) :
    ∀ l : List Nat, hasGlyphsGo f l = l.all (fun c => f.hasGlyph c) := by
  intro l
  induction l with
  | nil => rfl
  | cons c rest ih =>
      by_cases h : f.hasGlyph c <;> simp [hasGlyphsGo, h, ih]

/-- C10: hasGlyphs is false on the empty string, and on any other string it
is true exactly when every codepoint is declared present by some rasterizer
in the fallback chain. -/
theorem c10_hasGlyphs_iff (f : Font) (text : List Nat) :
    f.hasGlyphs text = true ↔
      text ≠ [] ∧ ∀ c ∈ text, ∃ rz ∈ f.rasterizers, rz.hasGlyph c = true := by
  unfold Font.hasGlyphs
  cases text with
  | nil => simp
  | cons c rest =>
      simp [hasGlyphsGo_eq_all, List.all_eq_true, Font.hasGlyph, List.any_eq_true]

/-- C9: a successful setFallbacks call replaces only the fallback
rasterizer list; the glyph cache, kerning cache, atlas textures and cache
generation are untouched, and a codepoint already in the glyph cache keeps
resolving to its cached record without consulting any rasterizer. -/
theorem c9_setFallbacks_preserves_caches (f : Font) (fbs : List Font) (f2 : Font)
    (fuel : Nat) (c : Nat) (g : Glyph)
    (h : f.setFallbacks fbs = some f2) (hc : f.glyphs.lookup c = some g) :
    f2.glyphs = f.glyphs ∧ f2.kerningCache = f.kerningCache ∧
    f2.textures = f.textures ∧ f2.textureCacheID = f.textureCacheID ∧
    findGlyph fuel f2 c = some (g, f2) := by
  unfold Font.setFallbacks at h
  split at h
  · exact absurd h (by simp)
  · injection h with h
    subst h
    refine ⟨rfl, rfl, rfl, rfl, ?_⟩
    unfold findGlyph
    have : Font.glyphs { f with fallbackRasts := fbs.map (fun fb => fb.primaryRast) } =
        f.glyphs := rfl
    rw [this, hc]

/-- C9 witness: a font whose cache holds codepoint 65 (which its own
rasterizer lacks) keeps returning the cached record after gaining a
fallback that does provide 65. -/
theorem c9_setFallbacks_witness :
    ∃ f2, c9Font.setFallbacks [c9Fallback] = some f2 ∧
      c9Rast.hasGlyph 65 = false ∧ c9Fallback.primaryRast.hasGlyph 65 = true ∧
      (f2.glyphs = c9Font.glyphs ∧ f2.kerningCache = c9Font.kerningCache ∧
       f2.textures = c9Font.textures ∧ f2.textureCacheID = c9Font.textureCacheID ∧
       findGlyph 5 f2 65 = some (c9Glyph, f2)) := by
  have hs : (c9Font.setFallbacks [c9Fallback]).isSome = true := by
    with_unfolding_all decide
  refine ⟨(c9Font.setFallbacks [c9Fallback]).get hs, (Option.some_get hs).symm, ?_, ?_, ?_⟩
  · with_unfolding_all decide
  · with_unfolding_all decide
  · exact c9_setFallbacks_preserves_caches c9Font [c9Fallback] _ 5 65 c9Glyph
      (Option.some_get hs).symm (by with_unfolding_all decide)

/-- Reflexivity of the configuration relation. -/
theorem sameConfig_refl (f : Font) : sameConfig f f :=
  ⟨rfl, rfl, rfl, rfl, rfl, rfl, rfl, rfl⟩

/-- Transitivity of the configuration relation. -/
theorem sameConfig_trans {f g h : Font} (h1 : sameConfig f g) (h2 : sameConfig g h) :
    sameConfig f h := by
  obtain ⟨a1, a2, a3, a4, a5, a6, a7, a8⟩ := h1
  obtain ⟨b1, b2, b3, b4, b5, b6, b7, b8⟩ := h2
  exact ⟨b1.trans a1, b2.trans a2, b3.trans a3, b4.trans a4,
         b5.trans a5, b6.trans a6, b7.trans a7, b8.trans a8⟩

/-- Glyph-data resolution only reads the configuration. -/
theorem getRasterizerGlyphData_congr {f f2 : Font} (h : sameConfig f f2) :
    ∀ glyph, f2.getRasterizerGlyphData glyph = f.getRasterizerGlyphData glyph := by
  obtain ⟨h1, h2, h3, h4, _⟩ := h
  intro glyph
  unfold Font.getRasterizerGlyphData Font.rasterizers
  rw [h1, h2, h4]

/-- The assigned spacing only reads the configuration. -/
theorem spacingOf_congr {f f2 : Font} (h : sameConfig f f2) :
    ∀ glyph, spacingOf f2 glyph = spacingOf f glyph := by
  intro glyph
  unfold spacingOf
  rw [getRasterizerGlyphData_congr h]

/-- The kerning value only reads the configuration. -/
theorem kerningOf_congr {f f2 : Font} (h : sameConfig f f2) :
    ∀ lg rg, kerningOf f2 lg rg = kerningOf f lg rg := by
  obtain ⟨h1, h2, h3, _⟩ := h
  intro lg rg
  unfold kerningOf Font.rasterizers
  rw [h1, h2, h3]

/-- The glyph-cache invariant transfers along equal caches and configs. -/
theorem glyphWF_congr {f f2 : Font} (hc : sameConfig f f2) (hg : f2.glyphs = f.glyphs) :
    glyphWF f → glyphWF f2 := by
  intro h p hp
  rw [hg] at hp
  rw [spacingOf_congr hc]
  exact h p hp

/-- The kerning-cache invariant transfers along equal caches and configs. -/
theorem kerningWF_congr {f f2 : Font} (hc : sameConfig f f2)
    (hk : f2.kerningCache = f.kerningCache) : kerningWF f → kerningWF f2 := by
  intro h p hp
  rw [hk] at hp
  obtain ⟨lg, rg, h1, h2, h3⟩ := h p hp
  exact ⟨lg, rg, h1, h2, by rw [kerningOf_congr hc]; exact h3⟩

/-- The quad-shape invariant transfers along equal caches. -/
theorem glyphQuadWF_congr {f f2 : Font} (hg : f2.glyphs = f.glyphs) :
    glyphQuadWF f → glyphQuadWF f2 := by
  intro h p hp
  rw [hg] at hp
  exact h p hp

/-- Reflexivity of the cache-preservation relation. -/
theorem preservesCaches_refl (f : Font) : preservesCaches f f :=
  ⟨sameConfig_refl f, rfl, id, id⟩

/-- Transitivity of the cache-preservation relation. -/
theorem preservesCaches_trans {f g h : Font} (h1 : preservesCaches f g)
    (h2 : preservesCaches g h) : preservesCaches f h :=
  ⟨sameConfig_trans h1.1 h2.1, h2.2.1.trans h1.2.1,
   fun hw => h2.2.2.1 (h1.2.2.1 hw), fun hw => h2.2.2.2 (h1.2.2.2 hw)⟩

/-- Membership in an association-list insert comes from the old list or is
the inserted pair. -/
theorem mem_insertAssoc {α : Type} {l : List (Nat × α)} {k : Nat} {v : α} :
    ∀ p ∈ insertAssoc l k v, p ∈ l ∨ p = (k, v) := by
  induction l with
  | nil =>
      intro p hp
      simp only [insertAssoc, List.mem_singleton] at hp
      exact Or.inr hp
  | cons q rest ih =>
      intro p hp
      unfold insertAssoc at hp
      split at hp
      · rcases List.mem_cons.mp hp with h | h
        · exact Or.inr h
        · exact Or.inl (List.mem_cons_of_mem q h)
      · rcases List.mem_cons.mp hp with h | h
        · exact Or.inl (h ▸ List.mem_cons_self q rest)
        · rcases ih p h with h2 | h2
          · exact Or.inl (List.mem_cons_of_mem q h2)
          · exact Or.inr h2

/-- A successful association-list lookup is a membership. -/
theorem lookup_mem {α : Type} {l : List (Nat × α)} {k : Nat} {v : α}
    (h : l.lookup k = some v) : (k, v) ∈ l := by
  induction l with
  | nil => simp [List.lookup] at h
  | cons q rest ih =>
      obtain ⟨k2, v2⟩ := q
      rw [List.lookup_cons] at h
      split at h
      · injection h with h
        subst h
        have : k = k2 := by
          rename_i hbeq
          simpa using hbeq
        subst this
        exact List.mem_cons_self _ _
      · exact List.mem_cons_of_mem _ (ih h)

/-- The row-advance cursor adjustment touches only the packing cursor. -/
theorem rowAdvance_fields (f : Font) (w h : Int) :
    sameConfig f (rowAdvance f w h) ∧ (rowAdvance f w h).glyphs = f.glyphs ∧
    (rowAdvance f w h).kerningCache = f.kerningCache ∧
    (rowAdvance f w h).textureWidth = f.textureWidth ∧
    (rowAdvance f w h).textureHeight = f.textureHeight ∧
    (rowAdvance f w h).textures = f.textures ∧
    (rowAdvance f w h).textureCacheID = f.textureCacheID ∧
    (rowAdvance f w h).pixelFormat = f.pixelFormat := by
  unfold rowAdvance
  split
  · exact ⟨⟨rfl, rfl, rfl, rfl, rfl, rfl, rfl, rfl⟩, rfl, rfl, rfl, rfl, rfl, rfl, rfl⟩
  · exact ⟨sameConfig_refl f, rfl, rfl, rfl, rfl, rfl, rfl, rfl⟩

/-- A fold of addGlyph steps preserves the caches, given that each addGlyph
call at this fuel does. -/
theorem foldlM_addGlyph_preserves (fuel : Nat)
    (hA : ∀ f glyph g f2, addGlyph fuel f glyph = some (g, f2) → preservesCaches f f2) :
    ∀ (l : List Nat) (f f2 : Font),
      l.foldlM (fun fc g => (addGlyph fuel fc g).map Prod.snd) f = some f2 →
      preservesCaches f f2 := by
  intro l
  induction l with
  | nil =>
      intro f f2 h
      simp only [List.foldlM_nil, Option.pure_def, Option.some.injEq] at h
      subst h
      exact preservesCaches_refl f
  | cons c rest ih =>
      intro f f2 h
      rw [List.foldlM_cons] at h
      cases hstep : addGlyph fuel f c with
      | none => rw [hstep] at h; simp [Option.map, Option.bind] at h
      | some p =>
          rw [hstep] at h
          simp only [Option.map_some', Option.some_bind] at h
          exact preservesCaches_trans (hA f c p.1 p.2 hstep) (ih p.2 f2 h)

/-- The cursor adjustment preserves the caches. -/
theorem rowAdvance_preserves (f : Font) (w h : Int) : preservesCaches f (rowAdvance f w h) := by
  obtain ⟨hc, hg, hk, _⟩ := rowAdvance_fields f w h
  exact ⟨hc, hk, glyphWF_congr hc hg, glyphQuadWF_congr hg⟩

/-- A glyph quad always has four vertices. -/
theorem glyphQuad_length (f1 : Font) (gd : GlyphData) (s : ℚ) :
    (glyphQuad f1 gd s).length = 4 := rfl

/-- Inserting a record with the correct spacing preserves the glyph-cache
invariant. -/
theorem glyphWF_insert {f f2 : Font} (hc : sameConfig f f2) {k : Nat} {g : Glyph}
    (hg2 : f2.glyphs = insertAssoc f.glyphs k g) (hs : g.spacing = spacingOf f k) :
    glyphWF f → glyphWF f2 := by
  intro h p hp
  rw [hg2] at hp
  rcases mem_insertAssoc p hp with hm | hm
  · rw [spacingOf_congr hc]; exact h p hm
  · subst hm; rw [spacingOf_congr hc]; exact hs

/-- Inserting a four-vertex record preserves the quad-shape invariant. -/
theorem glyphQuadWF_insert {f f2 : Font} {k : Nat} {g : Glyph}
    (hg2 : f2.glyphs = insertAssoc f.glyphs k g) (hlen : g.vertices.length = 4) :
    glyphQuadWF f → glyphQuadWF f2 := by
  intro h p hp
  rw [hg2] at hp
  rcases mem_insertAssoc p hp with hm | hm
  · exact h p hm
  · subst hm; exact hlen

/-- Master preservation facts of the atlas path, by induction on the fuel:
addGlyph and createTexture leave the configuration and the kerning cache
untouched and preserve the glyph-cache invariants; addGlyph assigns the
configuration-determined spacing and a four-vertex quad; invisible glyph
data yields a null texture with zeroed vertices. -/
theorem atlas_preserve : ∀ fuel : Nat,
    (∀ f glyph g f2, addGlyph fuel f glyph = some (g, f2) →
      preservesCaches f f2 ∧ g.spacing = spacingOf f glyph ∧ g.vertices.length = 4 ∧
      (¬ (0 < (f.getRasterizerGlyphData glyph).1.width ∧
          0 < (f.getRasterizerGlyphData glyph).1.height) →
        g.texture = none ∧ g.vertices = zeroVerts)) ∧
    (∀ f f2, createTexture fuel f = some f2 → preservesCaches f f2) := by
  intro fuel
  induction fuel with
  | zero =>
      constructor
      · intro f glyph g f2 h; simp [addGlyph] at h
      · intro f f2 h; simp [createTexture] at h
  | succ fuel ih =>
      obtain ⟨ihA, ihC⟩ := ih
      constructor
      · intro f glyph g f2 h
        simp only [addGlyph] at h
        split at h
        · -- texture full: createTexture, then retry this glyph
          cases hct : createTexture fuel
              (rowAdvance f (f.getRasterizerGlyphData glyph).1.width
                (f.getRasterizerGlyphData glyph).1.height) with
          | none => rw [hct] at h; exact absurd h (by simp)
          | some fA =>
              rw [hct] at h
              have hrowp := rowAdvance_preserves f (f.getRasterizerGlyphData glyph).1.width
                (f.getRasterizerGlyphData glyph).1.height
              have hctp := ihC _ _ hct
              have hAp := ihA _ _ _ _ h
              have hpre : preservesCaches f fA := preservesCaches_trans hrowp hctp
              refine ⟨preservesCaches_trans hpre hAp.1, ?_, hAp.2.2.1, ?_⟩
              · rw [hAp.2.1, spacingOf_congr hpre.1]
              · intro hinv
                refine hAp.2.2.2 ?_
                rw [getRasterizerGlyphData_congr hpre.1]
                exact hinv
        · -- the glyph is placed at the cursor
          have hrowc := (rowAdvance_fields f (f.getRasterizerGlyphData glyph).1.width
            (f.getRasterizerGlyphData glyph).1.height).1
          have hsp : floorq ((f.getRasterizerGlyphData glyph).1.advance /
              (f.getRasterizerGlyphData glyph).2 + 1/2) = spacingOf f glyph := rfl
          split at h
          · -- visible glyph
            rename_i hvis
            cases hlast : (rowAdvance f (f.getRasterizerGlyphData glyph).1.width
                (f.getRasterizerGlyphData glyph).1.height).textures.getLast? with
            | none => rw [hlast] at h; exact absurd h (by simp)
            | some tex =>
                rw [hlast] at h
                split at h
                · exact absurd h (by simp)
                · split at h
                  · exact absurd h (by simp)
                  · injection h with h
                    rw [Prod.mk.injEq] at h
                    obtain ⟨hg, hf2⟩ := h
                    subst hg
                    subst hf2
                    refine ⟨?_, ?_, glyphQuad_length _ _ _, fun hinv => absurd hvis hinv⟩
                    · refine preservesCaches_trans
                        (rowAdvance_preserves f (f.getRasterizerGlyphData glyph).1.width
                          (f.getRasterizerGlyphData glyph).1.height)
                        ⟨⟨rfl, rfl, rfl, rfl, rfl, rfl, rfl, rfl⟩, rfl, ?_, ?_⟩
                      · refine glyphWF_insert ⟨rfl, rfl, rfl, rfl, rfl, rfl, rfl, rfl⟩ rfl ?_
                        show floorq ((f.getRasterizerGlyphData glyph).1.advance /
                          (f.getRasterizerGlyphData glyph).2 + 1/2) = _
                        rw [hsp, spacingOf_congr hrowc]
                      · exact glyphQuadWF_insert rfl (glyphQuad_length _ _ _)
                    · exact hsp
          · -- invisible glyph: null texture, zero vertices
            rename_i hvis
            injection h with h
            rw [Prod.mk.injEq] at h
            obtain ⟨hg, hf2⟩ := h
            subst hg
            subst hf2
            refine ⟨?_, hsp, rfl, fun _ => ⟨rfl, rfl⟩⟩
            refine preservesCaches_trans
              (rowAdvance_preserves f (f.getRasterizerGlyphData glyph).1.width
                (f.getRasterizerGlyphData glyph).1.height)
              ⟨⟨rfl, rfl, rfl, rfl, rfl, rfl, rfl, rfl⟩, rfl, ?_, ?_⟩
            · refine glyphWF_insert ⟨rfl, rfl, rfl, rfl, rfl, rfl, rfl, rfl⟩ rfl ?_
              show floorq ((f.getRasterizerGlyphData glyph).1.advance /
                (f.getRasterizerGlyphData glyph).2 + 1/2) = _
              rw [hsp, spacingOf_congr hrowc]
            · exact glyphQuadWF_insert rfl rfl
      · intro f f2 h
        simp only [createTexture] at h
        split at h
        · -- replace the texture and re-add every cached glyph
          refine preservesCaches_trans ?_
            (foldlM_addGlyph_preserves fuel
              (fun fa c ga fa2 ha => (ihA fa c ga fa2 ha).1) _ _ _ h)
          exact ⟨⟨rfl, rfl, rfl, rfl, rfl, rfl, rfl, rfl⟩, rfl,
            fun _ p hp => absurd hp (List.not_mem_nil p),
            fun _ p hp => absurd hp (List.not_mem_nil p)⟩
        · injection h with h
          subst h
          exact ⟨⟨rfl, rfl, rfl, rfl, rfl, rfl, rfl, rfl⟩, rfl,
            glyphWF_congr ⟨rfl, rfl, rfl, rfl, rfl, rfl, rfl, rfl⟩ rfl,
            glyphQuadWF_congr rfl⟩


/-- The constructor only adds the first texture on top of the
pre-loadVolatile state. -/
theorem ofRasterizer_preserves (r : Rasterizer) (gl : Option Int) (la8 : Bool) :
    preservesCaches (Font.preVolatile r gl la8) (Font.ofRasterizer r gl la8) := by
  unfold Font.ofRasterizer
  cases hct : createTexture 1 (Font.preVolatile r gl la8) with
  | none => exact preservesCaches_refl _
  | some fx => exact (atlas_preserve 1).2 _ _ hct

/-- The constructor leaves the glyph cache empty. -/
theorem ofRasterizer_glyphs (r : Rasterizer) (gl : Option Int) (la8 : Bool) :
    (Font.ofRasterizer r gl la8).glyphs = [] := by
  unfold Font.ofRasterizer
  cases hct : createTexture 1 (Font.preVolatile r gl la8) with
  | none => rfl
  | some fx =>
      simp only [createTexture] at hct
      rw [if_neg (fun hcond => hcond.2 rfl)] at hct
      injection hct with hct
      subst hct
      rfl

/-- Configuration and cache facts about a freshly constructed font. -/
theorem ofRasterizer_fields (r : Rasterizer) (gl : Option Int) (la8 : Bool) :
    (Font.ofRasterizer r gl la8).primaryRast = r ∧
    (Font.ofRasterizer r gl la8).fallbackRasts = [] ∧
    (Font.ofRasterizer r gl la8).useSpacesAsTab = (! r.hasGlyph 9) ∧
    (Font.ofRasterizer r gl la8).dpiScale = r.dpiScale ∧
    (Font.ofRasterizer r gl la8).kerningCache = [] ∧
    glyphWF (Font.ofRasterizer r gl la8) ∧ kerningWF (Font.ofRasterizer r gl la8) ∧
    glyphQuadWF (Font.ofRasterizer r gl la8) := by
  obtain ⟨⟨h1, h2, h3, h4, _⟩, hk, hwg, hwq⟩ := ofRasterizer_preserves r gl la8
  refine ⟨h1, h2, h4, h3, hk, ?_, ?_, ?_⟩
  · exact hwg (fun p hp => absurd hp (List.not_mem_nil p))
  · intro p hp
    rw [hk] at hp
    exact absurd hp (List.not_mem_nil p)
  · exact hwq (fun p hp => absurd hp (List.not_mem_nil p))

/-- findGlyph returns the configuration-determined spacing and preserves
the caches; a cache hit leaves the font untouched. -/
theorem findGlyph_spacing {fuel : Nat} {f : Font} {c : Nat} {g : Glyph} {f2 : Font}
    (hwf : glyphWF f) (h : findGlyph fuel f c = some (g, f2)) :
    g.spacing = spacingOf f c ∧ preservesCaches f f2 := by
  unfold findGlyph at h
  cases hl : f.glyphs.lookup c with
  | some g2 =>
      rw [hl] at h
      injection h with h
      rw [Prod.mk.injEq] at h
      obtain ⟨h1, h2⟩ := h
      subst h1
      subst h2
      exact ⟨hwf _ (lookup_mem hl), preservesCaches_refl f⟩
  | none =>
      rw [hl] at h
      have hA := (atlas_preserve fuel).1 f c g f2 h
      exact ⟨hA.2.1, hA.1⟩

/-- findGlyph returns a four-vertex quad and preserves the caches. -/
theorem findGlyph_quad {fuel : Nat} {f : Font} {c : Nat} {g : Glyph} {f2 : Font}
    (hq : glyphQuadWF f) (h : findGlyph fuel f c = some (g, f2)) :
    g.vertices.length = 4 ∧ preservesCaches f f2 := by
  unfold findGlyph at h
  cases hl : f.glyphs.lookup c with
  | some g2 =>
      rw [hl] at h
      injection h with h
      rw [Prod.mk.injEq] at h
      obtain ⟨h1, h2⟩ := h
      subst h1
      subst h2
      exact ⟨hq _ (lookup_mem hl), preservesCaches_refl f⟩
  | none =>
      rw [hl] at h
      have hA := (atlas_preserve fuel).1 f c g f2 h
      exact ⟨hA.2.2.1, hA.1⟩

/-- getKerning returns the configuration-determined kerning value for an
in-range right glyph, and only touches the kerning cache. -/
theorem getKerning_spec {f : Font} {lg rg : Nat} (hwf : kerningWF f) (hr : rg < 2 ^ 32) :
    (f.getKerning lg rg).1 = kerningOf f lg rg ∧
    (f.getKerning lg rg).2.glyphs = f.glyphs ∧
    sameConfig f (f.getKerning lg rg).2 ∧
    kerningWF (f.getKerning lg rg).2 ∧
    (f.getKerning lg rg).2.textureCacheID = f.textureCacheID := by
  unfold Font.getKerning
  cases hl : f.kerningCache.lookup (lg * 2 ^ 32 + rg) with
  | some k =>
      simp only [hl]
      obtain ⟨l2, r2, hlt, hkey, hval⟩ := hwf _ (lookup_mem hl)
      have hkey2 : lg * 2 ^ 32 + rg = l2 * 2 ^ 32 + r2 := hkey
      have hval2 : k = kerningOf f l2 r2 := hval
      have hl2 : l2 = lg := by omega
      have hr2 : r2 = rg := by omega
      subst hl2
      subst hr2
      exact ⟨hval2, trivial, sameConfig_refl f, hwf, trivial⟩
  | none =>
      simp only [hl]
      refine ⟨?_, trivial, ⟨rfl, rfl, rfl, rfl, rfl, rfl, rfl, rfl⟩, ?_, trivial⟩
      · rfl
      · intro p hp
        rcases mem_insertAssoc p hp with hm | hm
        · obtain ⟨l2, r2, hlt, hkey, hval⟩ := hwf p hm
          exact ⟨l2, r2, hlt, hkey, hval⟩
        · subst hm
          exact ⟨lg, rg, hr, rfl, rfl⟩


/-- C7: for a font built on a primary rasterizer that lacks the tab
codepoint, resolving the tab glyph synthesizes a record with no visible
glyph (null texture, zeroed quad vertices) whose advance is the configured
multiplier times the space advance, dpi-descaled and rounded like any
other glyph. -/
theorem c7_tab_synthesis (r : Rasterizer) (gl : Option Int) (la8 : Bool)
    (fuel : Nat) (g : Glyph) (f2 : Font)
    (hr : r.hasGlyph 9 = false)
    (h : findGlyph fuel (Font.ofRasterizer r gl la8) 9 = some (g, f2)) :
    g.texture = none ∧ g.vertices = zeroVerts ∧
    g.spacing = floorq ((r.glyphData 32).advance * SPACES_PER_TAB / r.dpiScale + 1/2) := by
  obtain ⟨h1, h2, h3, h4, hk, hwg, hwk, hwq⟩ := ofRasterizer_fields r gl la8
  have hu : (Font.ofRasterizer r gl la8).useSpacesAsTab = true := by
    rw [h3, hr]
    rfl
  have hgd : (Font.ofRasterizer r gl la8).getRasterizerGlyphData 9 =
      ({ advance := (r.glyphData 32).advance * SPACES_PER_TAB,
         bearingX := (r.glyphData 32).bearingX, bearingY := (r.glyphData 32).bearingY,
         width := 0, height := 0, format := (r.glyphData 32).format },
       r.dpiScale) := by
    unfold Font.getRasterizerGlyphData
    rw [if_pos ⟨rfl, hu⟩, h1]
  have hglyphs := ofRasterizer_glyphs r gl la8
  unfold findGlyph at h
  rw [hglyphs] at h
  simp only [List.lookup_nil] at h
  have hA := (atlas_preserve fuel).1 _ 9 g f2 h
  have hinv := hA.2.2.2 (by rw [hgd]; simp)
  refine ⟨hinv.1, hinv.2, ?_⟩
  rw [hA.2.1]
  unfold spacingOf
  rw [hgd]

/-- C7 witness: a concrete rasterizer lacking the tab (space advance 10,
dpi scale 2, multiplier 4) synthesizes an invisible tab with advance 20. -/
theorem c7_tab_synthesis_witness :
    ∃ p : Glyph × Font, findGlyph 5 (Font.ofRasterizer c7Rast (some 2048) true) 9 = some p ∧
      p.1.texture = none ∧ p.1.vertices = zeroVerts ∧
      p.1.spacing = floorq ((c7Rast.glyphData 32).advance * SPACES_PER_TAB /
        c7Rast.dpiScale + 1/2) ∧
      p.1.spacing = 20 := by
  have hs : (findGlyph 5 (Font.ofRasterizer c7Rast (some 2048) true) 9).isSome = true := by
    with_unfolding_all decide
  refine ⟨(findGlyph 5 (Font.ofRasterizer c7Rast (some 2048) true) 9).get hs,
    (Option.some_get hs).symm, ?_⟩
  have hthm := c7_tab_synthesis c7Rast (some 2048) true 5 _ _
    (by with_unfolding_all decide) (Option.some_get hs).symm
  have h20 : floorq ((c7Rast.glyphData 32).advance * SPACES_PER_TAB /
      c7Rast.dpiScale + 1/2) = 20 := by with_unfolding_all decide
  exact ⟨hthm.1, hthm.2.1, hthm.2.2, hthm.2.2.trans h20⟩

/-- The accumulated line width only reads the configuration. -/
theorem lineWidthFrom_congr {f f2 : Font} (hc : sameConfig f f2) :
    ∀ (prev : Nat) (l : List Nat), lineWidthFrom f2 prev l = lineWidthFrom f prev l := by
  intro prev l
  induction l generalizing prev with
  | nil => rfl
  | cons c rest ih =>
      simp only [lineWidthFrom, spacingOf_congr hc, kerningOf_congr hc, ih]

/-- The getWidth accumulation loop computes the running width plus the
spacing-and-kerning sum of the remaining codepoints, preserving the cache
invariants and the configuration. -/
theorem getWidthLineGo_spec (fuel : Nat) :
    ∀ (line : List Nat) (f : Font) (prev : Nat) (width res : ℚ) (f2 : Font),
      glyphWF f → kerningWF f → prev < 2 ^ 32 →
      (∀ c ∈ line, c < 2 ^ 32 ∧ c ≠ 13) →
      getWidthLineGo fuel f line prev width = some (res, f2) →
      res = width + lineWidthFrom f prev line ∧
      glyphWF f2 ∧ kerningWF f2 ∧ sameConfig f f2 := by
  intro line
  induction line with
  | nil =>
      intro f prev width res f2 hwg hwk hprev hcs h
      simp only [getWidthLineGo, Option.some.injEq, Prod.mk.injEq] at h
      obtain ⟨h1, h2⟩ := h
      subst h1
      subst h2
      simp [lineWidthFrom, sameConfig_refl, hwg, hwk]
  | cons c rest ih =>
      intro f prev width res f2 hwg hwk hprev hcs h
      have hc32 := (hcs c (List.mem_cons_self c rest)).1
      have hc13 := (hcs c (List.mem_cons_self c rest)).2
      rw [getWidthLineGo, if_neg hc13] at h
      cases hfg : findGlyph fuel f c with
      | none => rw [hfg] at h; exact absurd h (by simp)
      | some gf =>
          rw [hfg] at h
          obtain ⟨hsp, hpre⟩ := findGlyph_spacing hwg hfg
          have hwg2 : glyphWF gf.2 := hpre.2.2.1 hwg
          have hwk2 : kerningWF gf.2 := kerningWF_congr hpre.1 hpre.2.1 hwk
          obtain ⟨hkv, hkg, hkc, hkw, _⟩ := @getKerning_spec gf.2 prev c hwk2 hc32
          have hwg3 : glyphWF (gf.2.getKerning prev c).2 :=
            glyphWF_congr hkc hkg hwg2
          have hconf3 : sameConfig f (gf.2.getKerning prev c).2 :=
            sameConfig_trans hpre.1 hkc
          obtain ⟨hres, hwgf, hwkf, hcf⟩ := ih (gf.2.getKerning prev c).2 c
            (width + gf.1.spacing + (gf.2.getKerning prev c).1) res f2 hwg3 hkw hc32
            (fun c2 hc2 => hcs c2 (List.mem_cons_of_mem c hc2)) h
          refine ⟨?_, hwgf, hwkf, sameConfig_trans hconf3 hcf⟩
          rw [hres, lineWidthFrom_congr hconf3, hsp, hkv, kerningOf_congr hpre.1]
          simp only [lineWidthFrom]
          ring

/-- Splitting on newlines is the identity on a newline-free string. -/
theorem getlineSplit_no_newline {s : List Nat} (h10 : ∀ c ∈ s, c ≠ 10) :
    getlineSplit s = [s] := by
  unfold getlineSplit
  have hsplit : s.splitOn 10 = [s] := by
    show s.splitOnP (· == 10) = [s]
    apply List.splitOnP_eq_single
    intro x hx
    simp only [beq_iff_eq]
    exact h10 x hx
  rw [hsplit, if_neg]
  intro heq
  exact h10 10 (List.mem_of_mem_getLast? heq) rfl

/-- C8 (amended): for a string with no newlines and no carriage returns,
getWidth returns the non-negative part of the accumulated width, and that
accumulated width is the claimed advances-plus-adjacent-kerning sum plus a
leading kerning term against the null glyph 0 (the loop seeds prevglyph
with 0, so kerning(0, first codepoint) is also added). -/
theorem c8_getWidth (fuel : Nat) (f : Font) (str : List Nat) (w : ℚ) (f2 : Font)
    (hwg : glyphWF f) (hwk : kerningWF f)
    (hcs : ∀ c ∈ str, c < 2 ^ 32 ∧ c ≠ 10 ∧ c ≠ 13)
    (h : Font.getWidth fuel f str = some (w, f2)) :
    w = max 0 (lineWidthFrom f 0 str) ∧
    lineWidthFrom f 0 str =
      (str.head?.elim 0 (fun c => kerningOf f 0 c)) + claimWidth f str := by
  constructor
  · unfold Font.getWidth at h
    by_cases hne : str.isEmpty
    · rw [if_pos hne] at h
      injection h with h
      rw [Prod.mk.injEq] at h
      obtain ⟨h1, _⟩ := h
      subst h1
      cases str with
      | nil => simp [lineWidthFrom]
      | cons c rest => simp [List.isEmpty_cons] at hne
    · rw [if_neg hne] at h
      rw [getlineSplit_no_newline (fun c hc => (hcs c hc).2.1)] at h
      rw [List.foldlM_cons] at h
      cases hgo : getWidthLineGo fuel f str 0 0 with
      | none => rw [hgo] at h; simp [Option.map, Option.bind] at h
      | some p =>
          rw [hgo] at h
          simp only [Option.map_some', Option.bind_eq_bind', Option.some_bind',
            List.foldlM_nil, Option.pure_def, Option.some.injEq, Prod.mk.injEq] at h
          obtain ⟨h1, _⟩ := h
          subst h1
          have hspec := getWidthLineGo_spec fuel str f 0 0 p.1 p.2 hwg hwk
            (by norm_num) (fun c hc => ⟨(hcs c hc).1, (hcs c hc).2.2⟩) hgo
          rw [hspec.1]
          simp
  · cases str with
    | nil => simp [lineWidthFrom, claimWidth]
    | cons c rest =>
        simp only [lineWidthFrom, claimWidth, List.head?_cons, Option.elim]
        ring

/-- C8 counterexample: with a rasterizer reporting kerning 7 against the
null glyph 0 and advance 3, getWidth of the one-codepoint string 65 is 10,
not the claimed pair-kerning sum 3: the loop adds kerning(0, 65). -/
theorem c8_counterexample :
    ¬ ((kFont.getWidth 9 [65]).map Prod.fst = some (claimWidth kFont [65])) := by
  with_unfolding_all decide

/-- C8 witness: on a font with advance 10 and no kerning, getWidth of a
two-codepoint string is 20, matching the amended formula. -/
theorem c8_getWidth_witness :
    ∃ p : ℚ × Font, wFont.getWidth 9 [97, 98] = some p ∧
      p.1 = max 0 (lineWidthFrom wFont 0 [97, 98]) ∧ p.1 = 20 := by
  have hs : (wFont.getWidth 9 [97, 98]).isSome = true := by
    with_unfolding_all decide
  have hmain := (c8_getWidth 9 wFont [97, 98] _ _
    ((ofRasterizer_fields wRast (some 2048) true).2.2.2.2.2.1)
    ((ofRasterizer_fields wRast (some 2048) true).2.2.2.2.2.2.1)
    (by decide) (Option.some_get hs).symm).1
  have hval : max 0 (lineWidthFrom wFont 0 [97, 98]) = 20 := by
    with_unfolding_all decide
  exact ⟨(wFont.getWidth 9 [97, 98]).get hs, (Option.some_get hs).symm,
    hmain, hmain.trans hval⟩


/-- C4: whenever glyph resolution bumps the texture-cache generation
mid-walk, the walk restarts from the first codepoint with cleared output:
the vertex buffer is truncated to its size at entry, the draw commands are
dropped, and the pen position, previous-glyph kerning state and color
cursor are reset to their initial values, continuing on the updated font. -/
theorem c4_restart (ops : ColorOps) (atlasfuel : Nat) (cps : List Nat)
    (colors : List IndexedColor) (constantcolor linearconstantcolor : Colorf)
    (extra_spacing offx offy heightoffset : ℚ) (vertstartsize : Nat)
    (fuel : Nat) (f : Font) (i : Nat) (dx dy : ℚ) (maxwidth : Int)
    (commands : List DrawCommand) (vertices : List GlyphVertex)
    (prevglyph : Nat) (curcolori : Int) (curcolor : Color32)
    (g : Nat) (gf : Glyph × Font)
    (hg : cps.get? i = some g) (h10 : g ≠ 10) (h13 : g ≠ 13)
    (hfind : findGlyph atlasfuel f g = some gf)
    (hid : f.textureCacheID ≠ gf.2.textureCacheID) :
    genVertsGo ops atlasfuel cps colors constantcolor linearconstantcolor extra_spacing
      offx offy heightoffset vertstartsize (fuel+1) f i dx dy maxwidth commands vertices
      prevglyph curcolori curcolor =
    genVertsGo ops atlasfuel cps colors constantcolor linearconstantcolor extra_spacing
      offx offy heightoffset vertstartsize fuel gf.2 0 offx offy 0 []
      (vertices.take vertstartsize) 0 (-1) (ops.toColor32 constantcolor) := by
  conv_lhs => rw [genVertsGo]
  simp only [hg, hfind]
  rw [if_neg h10, if_neg h13, if_pos hid]

/-- C4 witness: on a concrete font state whose next 100 by 100 glyph
forces the 128 by 128 texture to be recreated at 256 by 128 (bumping the
generation from 1 to 2), the walk at fuel 3 equals the restarted walk at
fuel 2 with cleared output. -/
theorem c4_restart_witness :
    ∃ gf : Glyph × Font, findGlyph 9 c4Font 66 = some gf ∧
      c4Font.textureCacheID ≠ gf.2.textureCacheID ∧
      genVertsGo idOps 9 [66] [] whiteColorf whiteColorf 0 0 0 0 0 3 c4Font 0 0 0 0 [] []
        0 (-1) (idOps.toColor32 whiteColorf) =
      genVertsGo idOps 9 [66] [] whiteColorf whiteColorf 0 0 0 0 0 2 gf.2 0 0 0 0 [] []
        0 (-1) (idOps.toColor32 whiteColorf) := by
  have hs : (findGlyph 9 c4Font 66).isSome = true := by with_unfolding_all decide
  have hsome := (Option.some_get hs).symm
  have hmap : (findGlyph 9 c4Font 66).map (fun p => p.2.textureCacheID) = some 2 := by
    with_unfolding_all decide
  rw [hsome] at hmap
  simp only [Option.map_some', Option.some.injEq] at hmap
  have hid : c4Font.textureCacheID ≠ ((findGlyph 9 c4Font 66).get hs).2.textureCacheID := by
    rw [hmap]
    with_unfolding_all decide
  refine ⟨(findGlyph 9 c4Font 66).get hs, hsome, hid, ?_⟩
  have heq := c4_restart idOps 9 [66] [] whiteColorf whiteColorf 0 0 0 0 0 2 c4Font 0 0 0 0
    [] [] 0 (-1) (idOps.toColor32 whiteColorf) 66 ((findGlyph 9 c4Font 66).get hs)
    (by decide) (by decide) (by decide) hsome hid
  simpa using heq


/-- getKerning leaves the glyph cache untouched. -/
theorem getKerning_glyphs (f : Font) (lg rg : Nat) :
    (f.getKerning lg rg).2.glyphs = f.glyphs := by
  simp only [Font.getKerning]
  split <;> (try split) <;> rfl

/-- getKerning leaves the configuration untouched. -/
theorem getKerning_config (f : Font) (lg rg : Nat) :
    sameConfig f (f.getKerning lg rg).2 := by
  simp only [Font.getKerning, sameConfig]
  split <;> (try split) <;> exact ⟨rfl, rfl, rfl, rfl, rfl, rfl, rfl, rfl⟩

/-- A chain covers a nondecreasing interval. -/
theorem cmdChain_le : ∀ {cmds : List DrawCommand} {a b : Nat}, cmdChain cmds a b → a ≤ b := by
  intro cmds
  induction cmds with
  | nil => intro a b h; exact Nat.le_of_eq h
  | cons c rest ih =>
      intro a b h
      simp only [cmdChain] at h
      have := ih h.2.2
      omega

/-- The ranges of a chain flatten to the covered interval. -/
theorem cmdChain_flatten : ∀ (cmds : List DrawCommand) (a b : Nat), cmdChain cmds a b →
    (cmds.map cmdRange).flatten = List.range' a (b - a) := by
  intro cmds
  induction cmds with
  | nil =>
      intro a b h
      have hab : a = b := h
      subst hab
      simp
  | cons c rest ih =>
      intro a b h
      simp only [cmdChain] at h
      obtain ⟨h1, h2, h3⟩ := h
      have hle : a + c.vertexcount ≤ b := cmdChain_le h3
      simp only [List.map_cons, List.flatten_cons, ih _ _ h3]
      unfold cmdRange
      rw [h1]
      have happ := List.range'_append a c.vertexcount (b - (a + c.vertexcount)) 1
      simp only [one_mul] at happ
      rw [happ]
      congr 1
      omega

/-- Every start vertex in a chain lies in the covered interval. -/
theorem cmdChain_sv_bounds : ∀ (cmds : List DrawCommand) (a b : Nat), cmdChain cmds a b →
    ∀ p ∈ cmds, a ≤ p.startvertex ∧ p.startvertex < b := by
  intro cmds
  induction cmds with
  | nil => intro a b _ p hp; exact absurd hp (List.not_mem_nil p)
  | cons c rest ih =>
      intro a b h p hp
      simp only [cmdChain] at h
      obtain ⟨h1, h2, h3⟩ := h
      have hle := cmdChain_le h3
      rcases List.mem_cons.mp hp with hm | hm
      · subst hm; omega
      · have := ih _ _ h3 p hm
        omega

/-- The start vertices of a chain are strictly increasing. -/
theorem cmdChain_pairwise : ∀ (cmds : List DrawCommand) (a b : Nat), cmdChain cmds a b →
    List.Pairwise (fun p q : DrawCommand => p.startvertex < q.startvertex) cmds := by
  intro cmds
  induction cmds with
  | nil => intro a b _; exact List.Pairwise.nil
  | cons c rest ih =>
      intro a b h
      simp only [cmdChain] at h
      obtain ⟨h1, h2, h3⟩ := h
      refine List.Pairwise.cons ?_ (ih _ _ h3)
      intro q hq
      have := (cmdChain_sv_bounds rest _ _ h3 q hq).1
      omega

/-- Bumping the last command distributes over a cons with a non-empty
tail. -/
theorem bumpLastCommand_cons (c : DrawCommand) (l : List DrawCommand) (hl : l ≠ []) :
    bumpLastCommand (c :: l) = c :: bumpLastCommand l := by
  cases l with
  | nil => exact absurd rfl hl
  | cons d t =>
      unfold bumpLastCommand
      rw [List.getLast?_cons_cons]
      cases hg : (d :: t).getLast? with
      | none => simp at hg
      | some last => simp

/-- Appending a fresh empty command at the end of the covered interval and
bumping it extends the chain by four vertices. -/
theorem cmdChain_push_bump : ∀ (cmds : List DrawCommand) (a L sv t : Nat),
    cmdChain cmds a L → sv = L →
    cmdChain (bumpLastCommand (cmds ++ [⟨sv, 0, t⟩])) a (L + 4) := by
  intro cmds
  induction cmds with
  | nil =>
      intro a L sv t h hsv
      have hab : a = L := h
      subst hab
      subst hsv
      unfold bumpLastCommand
      simp only [List.nil_append, List.getLast?_singleton, List.dropLast_single]
      exact ⟨rfl, by norm_num, by simp [cmdChain]⟩
  | cons c rest ih =>
      intro a L sv t h hsv
      simp only [cmdChain] at h
      obtain ⟨h1, h2, h3⟩ := h
      rw [List.cons_append, bumpLastCommand_cons _ _ (by simp)]
      exact ⟨h1, h2, ih _ _ _ t h3 hsv⟩

/-- Bumping the last command of a non-empty chain extends it by four
vertices. -/
theorem cmdChain_bump : ∀ (cmds : List DrawCommand) (a L : Nat),
    cmdChain cmds a L → cmds ≠ [] → cmdChain (bumpLastCommand cmds) a (L + 4) := by
  intro cmds
  induction cmds with
  | nil => intro a L _ hne; exact absurd rfl hne
  | cons c rest ih =>
      intro a L h _
      simp only [cmdChain] at h
      obtain ⟨h1, h2, h3⟩ := h
      cases rest with
      | nil =>
          have hL : a + c.vertexcount = L := h3
          unfold bumpLastCommand
          simp only [List.getLast?_singleton, List.dropLast_single]
          refine ⟨h1, ?_, ?_⟩
          · show 0 < c.vertexcount + 4
            omega
          · show a + (c.vertexcount + 4) = L + 4
            omega
      | cons d t =>
          rw [bumpLastCommand_cons _ _ (by simp)]
          exact ⟨h1, h2, ih _ _ h3 (by simp)⟩

/-- The comparator rejects a pair exactly when it is weakly ordered by
texture identity then start vertex. -/
theorem drawsort_eq_false_iff (a b : DrawCommand) :
    drawsort a b = false ↔
      (b.texture < a.texture ∨ (a.texture = b.texture ∧ b.startvertex ≤ a.startvertex)) := by
  unfold drawsort
  by_cases h : a.texture = b.texture
  · rw [if_neg (fun hn => hn h), decide_eq_false_iff_not]
    omega
  · rw [if_pos h, decide_eq_false_iff_not]
    have h' : ¬ a.texture = b.texture := h
    omega

/-- The complemented draw comparator is transitive. -/
theorem drawsortLe_trans (a b c : DrawCommand) :
    (! drawsort b a) = true → (! drawsort c b) = true → (! drawsort c a) = true := by
  intro hba hcb
  rw [Bool.not_eq_true'] at hba hcb ⊢
  rw [drawsort_eq_false_iff] at hba hcb ⊢
  omega

/-- The complemented draw comparator is total. -/
theorem drawsortLe_total (a b : DrawCommand) :
    ((! drawsort b a) || (! drawsort a b)) = true := by
  rw [Bool.or_eq_true, Bool.not_eq_true', Bool.not_eq_true',
    drawsort_eq_false_iff, drawsort_eq_false_iff]
  omega

/-- The sorted command list is a permutation of the input, ordered by the
complemented comparator. -/
theorem sortCommands_spec (cmds : List DrawCommand) :
    (sortCommands cmds).Perm cmds ∧
    List.Pairwise (fun a b => (! drawsort b a) = true) (sortCommands cmds) :=
  ⟨List.mergeSort_perm cmds _,
   List.sorted_mergeSort drawsortLe_trans drawsortLe_total cmds⟩

/-- Comparator order plus distinct start vertices yields the strict
texture-then-vertex lexicographic order. -/
theorem pairwise_cmdLexLt {cmds : List DrawCommand}
    (hs : List.Pairwise (fun a b => (! drawsort b a) = true) cmds)
    (hnd : List.Pairwise (fun a b : DrawCommand => a.startvertex ≠ b.startvertex) cmds) :
    List.Pairwise cmdLexLt cmds := by
  refine (hs.and hnd).imp ?_
  intro a b hab
  obtain ⟨h1, h2⟩ := hab
  rw [Bool.not_eq_true'] at h1
  unfold drawsort at h1
  unfold cmdLexLt
  by_cases h : b.texture = a.texture
  · rw [if_neg (fun hn => hn h)] at h1
    have h1' : ¬ (b.startvertex < a.startvertex) := of_decide_eq_false h1
    exact Or.inr ⟨h.symm, by omega⟩
  · rw [if_pos h] at h1
    have h1' : ¬ (b.texture < a.texture) := of_decide_eq_false h1
    have hne : a.texture ≠ b.texture := fun he => h he.symm
    exact Or.inl (by omega)


/-- The generateVertices walk keeps the draw commands a gapless chain of
quads from the entry size of the vertex buffer to its current end. -/
theorem genVertsGo_chain (ops : ColorOps) (atlasfuel : Nat) (cps : List Nat)
    (colors : List IndexedColor) (ccol0 lcc : Colorf) (es offx offy ho : ℚ) (vss : Nat) :
    ∀ (fuel : Nat) (f : Font) (i : Nat) (dx dy : ℚ) (mw : Int)
      (cmds : List DrawCommand) (verts : List GlyphVertex) (pg : Nat) (cci : Int)
      (ccol : Color32)
      (out : List DrawCommand × List GlyphVertex × ℚ × ℚ × Int × Font),
      glyphQuadWF f →
      cmdChain cmds vss verts.length →
      genVertsGo ops atlasfuel cps colors ccol0 lcc es offx offy ho vss fuel f i dx dy mw
        cmds verts pg cci ccol = some out →
      cmdChain out.1 vss out.2.1.length := by
  intro fuel
  induction fuel with
  | zero =>
      intro f i dx dy mw cmds verts pg cci ccol out hq hchain h
      simp [genVertsGo] at h
  | succ fuel ih =>
      intro f i dx dy mw cmds verts pg cci ccol out hq hchain h
      rw [genVertsGo] at h
      cases hg : cps.get? i with
      | none =>
          simp only [hg] at h
          injection h with h
          subst h
          exact hchain
      | some g =>
          simp only [hg] at h
          by_cases h10 : g = 10
          · rw [if_pos h10] at h
            exact ih _ _ _ _ _ _ _ _ _ _ _ hq hchain h
          · rw [if_neg h10] at h
            by_cases h13 : g = 13
            · rw [if_pos h13] at h
              exact ih _ _ _ _ _ _ _ _ _ _ _ hq hchain h
            · rw [if_neg h13] at h
              cases hfg : findGlyph atlasfuel f g with
              | none =>
                  simp only [hfg] at h
                  exact Option.noConfusion h
              | some gf =>
                  obtain ⟨glyph, f2⟩ := gf
                  have hquad := findGlyph_quad hq hfg
                  have hq2 : glyphQuadWF f2 := hquad.2.2.2.2 hq
                  simp only [hfg] at h
                  by_cases hid : f.textureCacheID = f2.textureCacheID
                  · rw [if_neg (fun hn => hn hid)] at h
                    have hq3 : glyphQuadWF (f2.getKerning pg g).2 :=
                      glyphQuadWF_congr (getKerning_glyphs f2 pg g) hq2
                    cases ht : glyph.texture with
                    | none =>
                        simp only [ht] at h
                        exact ih _ _ _ _ _ _ _ _ _ _ _ hq3 hchain h
                    | some tex =>
                        simp only [ht] at h
                        cases hlast : cmds.getLast? with
                        | none =>
                            simp only [hlast] at h
                            refine ih _ _ _ _ _ _ _ _ _ _ _ hq3 ?_ h
                            rw [List.length_append, List.length_map, hquad.1,
                              Nat.add_sub_cancel]
                            exact cmdChain_push_bump cmds vss verts.length verts.length tex
                              hchain rfl
                        | some cmd =>
                            simp only [hlast] at h
                            by_cases htex : cmd.texture = tex
                            · rw [if_neg (show ¬ (cmd.texture ≠ tex) from
                                fun hn => hn htex)] at h
                              have hne : cmds ≠ [] := by
                                intro he
                                rw [he] at hlast
                                simp at hlast
                              refine ih _ _ _ _ _ _ _ _ _ _ _ hq3 ?_ h
                              rw [List.length_append, List.length_map, hquad.1]
                              exact cmdChain_bump cmds vss verts.length hchain hne
                            · rw [if_pos (show cmd.texture ≠ tex from htex)] at h
                              refine ih _ _ _ _ _ _ _ _ _ _ _ hq3 ?_ h
                              rw [List.length_append, List.length_map, hquad.1,
                                Nat.add_sub_cancel]
                              exact cmdChain_push_bump cmds vss verts.length verts.length tex
                                hchain rfl
                  · rw [if_pos hid] at h
                    have hvss : vss ≤ verts.length := cmdChain_le hchain
                    have hchain2 : cmdChain [] vss (verts.take vss).length := by
                      show vss = (verts.take vss).length
                      rw [List.length_take]
                      omega
                    exact ih _ _ _ _ _ _ _ _ _ _ _ hq2 hchain2 h


/-- C3: for every non-wrapped input with no embedded newlines, starting
from an empty vertex buffer, the draw commands returned by
generateVertices have vertex ranges [startvertex, startvertex +
vertexcount) that partition [0, vertices.size()) exactly once (their
concatenation is a permutation of the full index range, so the ranges are
disjoint, contiguous and covering), and the command list is sorted
strictly ascending by (texture identity, start vertex). -/
theorem c3_commands_partition_sorted (ops : ColorOps) (atlasfuel loopfuel : Nat) (f : Font)
    (text : ColoredCodepoints) (constantcolor : Colorf) (extra_spacing : ℚ) (offset : Vector2)
    (cmds : List DrawCommand) (verts : List GlyphVertex) (info : TextInfo) (f2 : Font)
    (hq : glyphQuadWF f)
    (hnl : ∀ c ∈ text.cps, c ≠ 10)
    (h : generateVertices ops atlasfuel loopfuel f text constantcolor [] extra_spacing offset =
      some (cmds, verts, info, f2)) :
    ((cmds.map cmdRange).flatten).Perm (List.range verts.length) ∧
    List.Chain' cmdLexLt cmds := by
  simp only [generateVertices] at h
  split at h
  · exact Option.noConfusion h
  all_goals
    rename_i commands0 verts0 dx dy maxwidth f3 heq
    injection h with h
    simp only [Prod.mk.injEq] at h
    obtain ⟨h1, h2, h3, h4⟩ := h
    subst h1
    subst h2
    have hinit : cmdChain [] (List.length ([] : List GlyphVertex))
        (List.length ([] : List GlyphVertex)) := rfl
    have hchain0 := genVertsGo_chain _ _ _ _ _ _ _ _ _ _ _ _ _ _ _ _ _ _ _ _ _ _ _ hq hinit heq
    have hchain : cmdChain commands0 0 verts0.length := hchain0
    have hperm0 : (sortCommands commands0).Perm commands0 := (sortCommands_spec _).1
    constructor
    · have hflat : (commands0.map cmdRange).flatten =
          List.range' 0 (verts0.length - 0) := cmdChain_flatten _ _ _ hchain
      refine ((hperm0.map cmdRange).flatten).trans ?_
      rw [hflat, List.range_eq_range' verts0.length, Nat.sub_zero]
    · have hs := (sortCommands_spec commands0).2
      have hpw := cmdChain_pairwise _ _ _ hchain
      have hnd0 : (commands0.map DrawCommand.startvertex).Nodup :=
        (List.pairwise_map).mpr (hpw.imp (fun hab => Nat.ne_of_lt hab))
      have hnds : ((sortCommands commands0).map DrawCommand.startvertex).Nodup :=
        ((hperm0.map DrawCommand.startvertex).nodup_iff).mpr hnd0
      have hndp : List.Pairwise
          (fun a b : DrawCommand => a.startvertex ≠ b.startvertex) (sortCommands commands0) :=
        (List.pairwise_map).mp hnds
      exact (pairwise_cmdLexLt hs hndp).chain'


/-- Witness for C3: a concrete two-glyph run on a font with visible
glyphs succeeds and satisfies the partition and sortedness properties. -/
theorem c3_witness :
    ∃ q : List DrawCommand × List GlyphVertex × TextInfo × Font,
      generateVertices idOps 9 9 vFont ⟨[65, 66], []⟩ whiteColorf [] 0 ⟨0, 0⟩ = some q ∧
      ((q.1.map cmdRange).flatten).Perm (List.range q.2.1.length) ∧
      List.Chain' cmdLexLt q.1 := by
  have hs : (generateVertices idOps 9 9 vFont ⟨[65, 66], []⟩ whiteColorf [] 0 ⟨0, 0⟩).isSome
      = true := by with_unfolding_all decide
  have hq : glyphQuadWF vFont := by
    show ∀ p ∈ vFont.glyphs, p.2.vertices.length = 4
    with_unfolding_all decide
  refine ⟨(generateVertices idOps 9 9 vFont ⟨[65, 66], []⟩ whiteColorf [] 0 ⟨0, 0⟩).get hs,
    (Option.some_get hs).symm, ?_⟩
  exact c3_commands_partition_sorted idOps 9 9 vFont ⟨[65, 66], []⟩ whiteColorf 0 ⟨0, 0⟩
    _ _ _ _ hq (by decide) (Option.some_get hs).symm


/-- Counterexample to C1 as stated: a single oversized codepoint (advance
10 against wrap limit 5) is not force-included on a line of its own; the
wrap returns two lines, both empty, and the codepoint appears on no
line. -/
theorem c1_counterexample :
    (wFont.getWrap 9 ⟨[65], []⟩ 5).map (fun r2 => r2.1.map (fun l => l.cps)) =
      some [[], []] := by
  with_unfolding_all decide

/-- C1 (amended): a non-space, non-newline codepoint whose advance plus
kerning alone exceeds the wrap limit, encountered while the current line
is empty, is skipped completely: the wrapper closes the current empty line
as-is (the oversized codepoint appears on no line) and processing resumes
at the following index. -/
theorem c1_oversized_skip (fuel : Nat) (colors : List IndexedColor) (wraplimit : ℚ)
    (f : Font) (rest : List Nat) (c i : Nat) (wbls wots : ℚ) (lsi : Int)
    (curcolor : Colorf) (addcurcolor : Bool) (curcolori : Int)
    (gf : Glyph × Font)
    (h32 : c ≠ 32) (h10 : c ≠ 10) (h13 : c ≠ 13)
    (hfg : findGlyph fuel f c = some gf)
    (hover : 0 + (gf.1.spacing + (gf.2.getKerning 0 c).1) > wraplimit) :
    getWrapLine fuel colors wraplimit f (c :: rest) i 0 wbls wots 0 lsi ⟨[], []⟩
      curcolor addcurcolor curcolori =
    some (WrapStep.closed ⟨[], []⟩ 0 (i + 1)
      (advanceColor colors i curcolor curcolori addcurcolor).1
      (advanceColor colors i curcolor curcolori addcurcolor).2.1
      (gf.2.getKerning 0 c).2) := by
  conv_lhs => rw [getWrapLine]
  simp only [hfg]
  rw [if_neg h10, if_neg h13, if_pos ⟨h32, hover⟩, if_pos True.intro]

/-- Witness for C1 (amended): the oversized codepoint 65 on wFont at wrap
limit 5 takes the skip branch. -/
theorem c1_oversized_skip_witness :
    ∃ gf : Glyph × Font,
      findGlyph 9 wFont 65 = some gf ∧
      getWrapLine 9 [] 5 wFont [65] 0 0 0 0 0 (-1) ⟨[], []⟩ whiteColorf false (-1) =
        some (WrapStep.closed ⟨[], []⟩ 0 1
          (advanceColor [] 0 whiteColorf (-1) false).1
          (advanceColor [] 0 whiteColorf (-1) false).2.1
          (gf.2.getKerning 0 65).2) := by
  have hfs : (findGlyph 9 wFont 65).isSome = true := by with_unfolding_all decide
  have hmap : (findGlyph 9 wFont 65).map
      (fun gf => decide (0 + (gf.1.spacing + (gf.2.getKerning 0 65).1) > (5 : ℚ))) =
      some true := by with_unfolding_all decide
  rw [← Option.some_get hfs] at hmap
  simp only [Option.map_some', Option.some.injEq] at hmap
  refine ⟨(findGlyph 9 wFont 65).get hfs, (Option.some_get hfs).symm, ?_⟩
  exact c1_oversized_skip 9 [] 5 wFont [] 65 0 0 0 (-1) whiteColorf false (-1) _
    (by decide) (by decide) (by decide) (Option.some_get hfs).symm
    (of_decide_eq_true hmap)


/-- dropWhile skips a prefix whose elements all satisfy the predicate. -/
theorem dropWhile_append_all {p : Nat → Bool} : ∀ (l1 l2 : List Nat),
    (∀ a ∈ l1, p a = true) → List.dropWhile p (l1 ++ l2) = List.dropWhile p l2 := by
  intro l1
  induction l1 with
  | nil => intro l2 _; rfl
  | cons a t ih =>
      intro l2 h
      rw [List.cons_append, List.dropWhile_cons_of_pos (h a (List.mem_cons_self a t))]
      exact ih l2 (fun b hb => h b (List.mem_cons_of_mem a hb))

/-- The pop-back loop of getWrap keeps exactly the prefix through the
final space when everything after it is a non-space. -/
theorem dropTrailingNonSpaces_append (A B : List Nat)
    (hA : A.getLast? = some 32) (hB : ∀ b ∈ B, b ≠ 32) :
    dropTrailingNonSpaces (A ++ B) = A := by
  unfold dropTrailingNonSpaces
  rw [List.reverse_append]
  rw [dropWhile_append_all B.reverse A.reverse (fun b hb => by
    have hb32 : b ≠ 32 := hB b (List.mem_reverse.mp hb)
    simpa using hb32)]
  cases hh : A.reverse with
  | nil =>
      exfalso
      rw [← List.head?_reverse, hh] at hA
      exact Option.noConfusion hA
  | cons a t =>
      rw [← List.head?_reverse, hh] at hA
      simp only [List.head?_cons, Option.some.injEq] at hA
      subst hA
      rw [List.dropWhile_cons_of_neg (by simp), ← hh, List.reverse_reverse]

/-- Elements drawn from an index window containing no space are
non-spaces. -/
theorem no_space_segment (l : List Nat) (a n : Nat)
    (h : ∀ k, a ≤ k → k < a + n → l[k]? ≠ some 32) :
    ∀ b ∈ (l.drop a).take n, b ≠ 32 := by
  intro b hb
  obtain ⟨k, hk⟩ := List.mem_iff_getElem?.mp hb
  have hkn : k < n := by
    by_contra hge
    rw [show ((l.drop a).take n)[k]? = none from
      List.getElem?_eq_none_iff.mpr
        (le_trans (List.length_take_le n (l.drop a)) (Nat.le_of_not_lt hge))] at hk
    exact Option.noConfusion hk
  rw [List.getElem?_take_of_lt hkn, List.getElem?_drop] at hk
  intro hb32
  subst hb32
  exact h (a + k) (Nat.le_add_right a k) (by omega) hk

/-- Splitting the visible codepoints of a suffix at an interior point. -/
theorem visible_take_drop (l : List Nat) (s k : Nat) :
    visibleCps ((l.drop s).take k) ++ visibleCps (l.drop (s + k)) = visibleCps (l.drop s) := by
  unfold visibleCps
  rw [← List.filter_append]
  congr 1
  rw [← List.drop_drop, List.take_append_drop]

/-- Splitting a window of a suffix at an interior index. -/
theorem take_segment (l : List Nat) (s m i : Nat) (h1 : s ≤ m) (h2 : m ≤ i) :
    (l.drop s).take (i - s) = (l.drop s).take (m - s) ++ (l.drop m).take (i - m) := by
  rw [show i - s = (m - s) + (i - m) from by omega, List.take_add]
  congr 1
  rw [List.drop_drop, show s + (m - s) = m from by omega]

/-- Extending the consumed window by its next codepoint. -/
theorem visible_take_snoc (l : List Nat) (s i c : Nat) (hsi : s ≤ i)
    (hc : l[i]? = some c) :
    (l.drop s).take (i + 1 - s) = (l.drop s).take (i - s) ++ [c] := by
  rw [show i + 1 - s = (i - s) + 1 from by omega, List.take_succ, List.getElem?_drop,
    show s + (i - s) = i from by omega, hc]
  rfl

/-- Visibility distributes over append. -/
theorem visibleCps_append (X Y : List Nat) :
    visibleCps (X ++ Y) = visibleCps X ++ visibleCps Y := List.filter_append X Y

/-- A codepoint other than newline and carriage return is visible. -/
theorem visibleCps_singleton {c : Nat} (h10 : c ≠ 10) (h13 : c ≠ 13) :
    visibleCps [c] = [c] := by
  unfold visibleCps
  simp [h10, h13]

/-- Reading the codepoint at the head of a suffix. -/
theorem drop_cons_get (cps rest2 : List Nat) (c i : Nat) (h : c :: rest2 = cps.drop i) :
    cps[i]? = some c ∧ rest2 = cps.drop (i + 1) := by
  constructor
  · have h2 := List.getElem?_drop cps i 0
    rw [← h] at h2
    simpa using h2.symm
  · have h2 : (c :: rest2).drop 1 = (cps.drop i).drop 1 := by rw [h]
    rw [List.drop_drop] at h2
    simpa using h2


/-- The per-line wrap walk, related to the input: under the no-oversized
proviso, a closed line together with the still-unprocessed suffix carries
exactly the visible codepoints of the suffix the line started at, and the
final line carries them all; the carried font keeps the cache invariants
and configuration. -/
theorem getWrapLine_spec (fuel : Nat) (colors : List IndexedColor) (wraplimit : ℚ)
    (cps : List Nat) (f0 : Font) (s : Nat)
    (hcps : ∀ c ∈ cps, c < 2 ^ 32)
    (hfit : ∀ c ∈ cps, c ≠ 32 → c ≠ 10 → c ≠ 13 →
      spacingOf f0 c + kerningOf f0 0 c ≤ wraplimit) :
    ∀ (rest : List Nat) (f : Font) (i : Nat) (width wbls wots : ℚ) (pg : Nat) (lsi : Int)
      (wline : ColoredCodepoints) (cc : Colorf) (acc : Bool) (cci : Int) (step : WrapStep),
      rest = cps.drop i → s ≤ i →
      glyphWF f → kerningWF f → sameConfig f0 f →
      wline.cps = visibleCps ((cps.drop s).take (i - s)) →
      (wline.cps = [] → width = 0 ∧ pg = 0) →
      (lsi ≠ -1 → ∃ j : Nat, lsi = (j : Int) ∧ s ≤ j ∧ j < i ∧ cps[j]? = some 32 ∧
        ∀ k, j < k → k < i → cps[k]? ≠ some 32) →
      getWrapLine fuel colors wraplimit f rest i width wbls wots pg lsi wline cc acc cci =
        some step →
      (match step with
       | WrapStep.last line _ _ => line.cps = visibleCps (cps.drop s)
       | WrapStep.closed line _ next _ _ f2 =>
           line.cps ++ visibleCps (cps.drop next) = visibleCps (cps.drop s) ∧
           glyphWF f2 ∧ kerningWF f2 ∧ sameConfig f0 f2) := by
  intro rest
  induction rest with
  | nil =>
      intro f i width wbls wots pg lsi wline cc acc cci step hrest hs hg hk hcfg hwl
        hempty hlsi h
      rw [getWrapLine] at h
      injection h with h
      subst h
      show wline.cps = visibleCps (cps.drop s)
      have hlen : cps.length ≤ i := List.drop_eq_nil_iff.mp hrest.symm
      rw [hwl, List.take_of_length_le (show (cps.drop s).length ≤ i - s from by
        rw [List.length_drop]; omega)]
  | cons c rest2 ih =>
      intro f i width wbls wots pg lsi wline cc acc cci step hrest hs hg hk hcfg hwl
        hempty hlsi h
      obtain ⟨hci, hrest2⟩ := drop_cons_get cps rest2 c i hrest
      rw [getWrapLine] at h
      by_cases h10 : c = 10
      · rw [if_pos h10] at h
        injection h with h
        subst h
        refine ⟨?_, hg, hk, hcfg⟩
        have hsplit := visible_take_drop cps s (i - s)
        rw [show s + (i - s) = i from by omega] at hsplit
        have hdi : cps.drop i = 10 :: cps.drop (i + 1) := by
          rw [← hrest2, ← h10]
          exact hrest.symm
        rw [hwl, ← hsplit, hdi]
        congr 1
      · rw [if_neg h10] at h
        by_cases h13 : c = 13
        · subst h13
          rw [if_pos rfl] at h
          refine ih f (i + 1) width wbls wots pg lsi wline _ _ _ step hrest2 (by omega)
            hg hk hcfg ?_ hempty ?_ h
          · rw [visible_take_snoc cps s i 13 hs hci, visibleCps_append,
              show visibleCps [13] = [] from by simp [visibleCps], List.append_nil]
            exact hwl
          · intro hne
            obtain ⟨j, hj1, hj2, hj3, hj4, hj5⟩ := hlsi hne
            refine ⟨j, hj1, hj2, by omega, hj4, fun k hk1 hk2 => ?_⟩
            rcases Nat.lt_or_ge k i with hlt | hge
            · exact hj5 k hk1 hlt
            · have hki : k = i := by omega
              subst hki
              rw [hci]
              simp
        · rw [if_neg h13] at h
          cases hfg : findGlyph fuel f c with
          | none =>
              simp only [hfg] at h
              exact Option.noConfusion h
          | some gf =>
              obtain ⟨gl, f1⟩ := gf
              simp only [hfg] at h
              have hsp := findGlyph_spacing hg hfg
              have hpres := hsp.2
              have hcfg1 : sameConfig f0 f1 := sameConfig_trans hcfg hpres.1
              have hg1 : glyphWF f1 := hpres.2.2.1 hg
              have hk1 : kerningWF f1 := kerningWF_congr hpres.1 hpres.2.1 hk
              have hc32lt : c < 2 ^ 32 := hcps c (List.getElem?_mem hci)
              obtain ⟨hkval, hkglyphs, hkcfg, hkwf, hkid⟩ := @getKerning_spec f1 pg c hk1 hc32lt
              have hcfg2 : sameConfig f0 (f1.getKerning pg c).2 := sameConfig_trans hcfg1 hkcfg
              have hg2 : glyphWF (f1.getKerning pg c).2 := glyphWF_congr hkcfg hkglyphs hg1
              have hk2 : kerningWF (f1.getKerning pg c).2 := hkwf
              by_cases hwrap : c ≠ 32 ∧ width + (gl.spacing + (f1.getKerning pg c).1) > wraplimit
              · rw [if_pos hwrap] at h
                by_cases hemp : wline.cps = []
                · rw [if_pos hemp] at h
                  exfalso
                  obtain ⟨hw0, hpg0⟩ := hempty hemp
                  have hfitc := hfit c (List.getElem?_mem hci) hwrap.1 h10 h13
                  have hval : gl.spacing = spacingOf f0 c := by
                    rw [hsp.1, spacingOf_congr hcfg]
                  have hval2 : (f1.getKerning pg c).1 = kerningOf f0 0 c := by
                    rw [hkval, hpg0, kerningOf_congr hcfg1]
                  have hgt := hwrap.2
                  rw [hw0, hval, hval2] at hgt
                  linarith
                · rw [if_neg hemp] at h
                  by_cases hlne : lsi ≠ -1
                  · rw [if_pos hlne] at h
                    injection h with h
                    subst h
                    obtain ⟨j, hj1, hj2, hj3, hj4, hj5⟩ := hlsi hlne
                    refine ⟨?_, hg2, hk2, hcfg2⟩
                    show dropTrailingNonSpaces wline.cps ++
                      visibleCps (cps.drop (lsi.toNat + 1)) = visibleCps (cps.drop s)
                    have htn : lsi.toNat = j := by rw [hj1]; rfl
                    have hAB : wline.cps =
                        visibleCps ((cps.drop s).take (j + 1 - s)) ++
                        visibleCps ((cps.drop (j + 1)).take (i - (j + 1))) := by
                      rw [hwl, take_segment cps s (j + 1) i (by omega) (by omega),
                        visibleCps_append]
                    have hAlast : (visibleCps ((cps.drop s).take (j + 1 - s))).getLast? =
                        some 32 := by
                      rw [visible_take_snoc cps s j 32 hj2 hj4, visibleCps_append,
                        visibleCps_singleton (by omega) (by omega)]
                      exact List.getLast?_concat _
                    have hBno : ∀ b ∈ visibleCps ((cps.drop (j + 1)).take (i - (j + 1))),
                        b ≠ 32 := by
                      intro b hb
                      refine no_space_segment cps (j + 1) (i - (j + 1)) ?_ b
                        (List.mem_of_mem_filter hb)
                      intro k hk1 hk2
                      exact hj5 k (by omega) (by omega)
                    rw [hAB, dropTrailingNonSpaces_append _ _ hAlast hBno, htn]
                    have hsplit := visible_take_drop cps s (j + 1 - s)
                    rw [show s + (j + 1 - s) = j + 1 from by omega] at hsplit
                    exact hsplit
                  · rw [if_neg hlne] at h
                    injection h with h
                    subst h
                    refine ⟨?_, hg2, hk2, hcfg2⟩
                    show wline.cps ++ visibleCps (cps.drop i) = visibleCps (cps.drop s)
                    have hsplit := visible_take_drop cps s (i - s)
                    rw [show s + (i - s) = i from by omega] at hsplit
                    rw [hwl]
                    exact hsplit
              · rw [if_neg hwrap] at h
                refine ih _ (i + 1) _ _ _ c _ _ _ _ _ step hrest2 (by omega)
                  hg2 hk2 hcfg2 ?_ ?_ ?_ h
                · show wline.cps ++ [c] = visibleCps ((cps.drop s).take (i + 1 - s))
                  rw [visible_take_snoc cps s i c hs hci, visibleCps_append,
                    visibleCps_singleton h10 h13, hwl]
                · intro habs
                  exact absurd habs (by simp)
                · by_cases hc32 : c = 32
                  · subst hc32
                    rw [if_pos rfl]
                    intro _
                    exact ⟨i, rfl, hs, by omega, hci,
                      fun k hk1 hk2 => absurd hk1 (by omega)⟩
                  · rw [if_neg hc32]
                    intro hne
                    obtain ⟨j, hj1, hj2, hj3, hj4, hj5⟩ := hlsi hne
                    refine ⟨j, hj1, hj2, by omega, hj4, fun k hk1 hk2 => ?_⟩
                    rcases Nat.lt_or_ge k i with hlt | hge
                    · exact hj5 k hk1 hlt
                    · have hki : k = i := by omega
                      subst hki
                      rw [hci]
                      intro hcon
                      injection hcon with hcon
                      exact hc32 hcon


/-- The outer loop of getWrap: the lines produced flatten to the
accumulated prefix plus the visible codepoints of the remaining suffix. -/
theorem getWrapGo_spec (atlasfuel : Nat) (cps : List Nat) (colors : List IndexedColor)
    (wraplimit : ℚ) (f0 : Font)
    (hcps : ∀ c ∈ cps, c < 2 ^ 32)
    (hfit : ∀ c ∈ cps, c ≠ 32 → c ≠ 10 → c ≠ 13 →
      spacingOf f0 c + kerningOf f0 0 c ≤ wraplimit) :
    ∀ (fuel : Nat) (f : Font) (i : Nat) (cc : Colorf) (cci : Int) (acc : Bool)
      (lines : List ColoredCodepoints) (widths : List ℚ)
      (out : List ColoredCodepoints × List ℚ × Font),
      glyphWF f → kerningWF f → sameConfig f0 f →
      getWrapGo atlasfuel cps colors wraplimit fuel f i cc cci acc lines widths = some out →
      (out.1.map (fun l => l.cps)).flatten =
        (lines.map (fun l => l.cps)).flatten ++ visibleCps (cps.drop i) := by
  intro fuel
  induction fuel with
  | zero =>
      intro f i cc cci acc lines widths out hg hk hcfg h
      exact Option.noConfusion h
  | succ fuel ih =>
      intro f i cc cci acc lines widths out hg hk hcfg h
      rw [getWrapGo] at h
      cases hstep : getWrapLine atlasfuel colors wraplimit f (cps.drop i) i 0 0 0 0 (-1)
          ⟨[], []⟩ cc acc cci with
      | none =>
          rw [hstep] at h
          exact Option.noConfusion h
      | some step =>
          have hspec := getWrapLine_spec atlasfuel colors wraplimit cps f0 i hcps hfit
            (cps.drop i) f i 0 0 0 0 (-1) ⟨[], []⟩ cc acc cci step rfl (le_refl i)
            hg hk hcfg (by simp [visibleCps]) (fun _ => ⟨rfl, rfl⟩)
            (fun hne => absurd rfl hne) hstep
          cases step with
          | last line lw f2 =>
              rw [hstep] at h
              injection h with h
              subst h
              simp only [List.map_append, List.flatten_append, List.map_cons, List.map_nil,
                List.flatten_cons, List.flatten_nil, List.append_nil]
              rw [hspec]
          | closed line lw next cc2 cci2 f2 =>
              rw [hstep] at h
              obtain ⟨hcontent, hg2, hk2, hcfg2⟩ := hspec
              have hrec := ih f2 next cc2 cci2 true (lines ++ [line]) (widths ++ [lw]) out
                hg2 hk2 hcfg2 h
              rw [hrec]
              simp only [List.map_append, List.flatten_append, List.map_cons, List.map_nil,
                List.flatten_cons, List.flatten_nil, List.append_nil]
              rw [List.append_assoc, hcontent]


/-- Counterexample to C2 as stated: at wrap limit 5 the oversized
codepoint 65 survives into no output line (the flattened output is
empty while the input content is [65]), so no re-insertion of spaces or
newlines at the breaks can reconstruct the original text. -/
theorem c2_counterexample :
    (wFont.getWrap 9 ⟨[65], []⟩ 5).map
        (fun r2 => (r2.1.map (fun l => l.cps)).flatten) = some [] ∧
    visibleCps [65] = [65] := by
  constructor
  · with_unfolding_all decide
  · with_unfolding_all decide

/-- C2 (amended): provided every non-space codepoint fits the wrap limit
on its own (no forced single-glyph overflow), the concatenation of the
codepoints of all lines returned by getWrap is exactly the input sequence
with newlines and carriage returns removed: every other input codepoint
appears, in order, exactly once — spaces at wrap breaks are kept at the
end of the closed line rather than re-inserted, and newlines mark the
line breaks. -/
theorem c2_wrap_content (atlasfuel : Nat) (f : Font) (text : ColoredCodepoints)
    (wraplimit : ℚ) (out : List ColoredCodepoints × List ℚ × Font)
    (hg : glyphWF f) (hk : kerningWF f)
    (hcps : ∀ c ∈ text.cps, c < 2 ^ 32)
    (hfit : ∀ c ∈ text.cps, c ≠ 32 → c ≠ 10 → c ≠ 13 →
      spacingOf f c + kerningOf f 0 c ≤ wraplimit)
    (h : f.getWrap atlasfuel text wraplimit = some out) :
    (out.1.map (fun l => l.cps)).flatten = visibleCps text.cps := by
  unfold Font.getWrap at h
  have hm := getWrapGo_spec atlasfuel text.cps text.colors wraplimit f hcps hfit
    (text.cps.length + 2) f 0 whiteColorf (-1) false [] [] out hg hk (sameConfig_refl f) h
  simpa using hm

/-- Witness for C2 (amended): wrapping the text "ab cd" at limit 25
reproduces exactly its codepoints across the lines. -/
theorem c2_wrap_content_witness :
    ∃ out : List ColoredCodepoints × List ℚ × Font,
      wFont.getWrap 9 ⟨[97, 98, 32, 99, 100], []⟩ 25 = some out ∧
      (out.1.map (fun l => l.cps)).flatten = visibleCps [97, 98, 32, 99, 100] := by
  have hs : (wFont.getWrap 9 ⟨[97, 98, 32, 99, 100], []⟩ 25).isSome = true := by
    with_unfolding_all decide
  have hg : glyphWF wFont := by
    show ∀ p ∈ wFont.glyphs, p.2.spacing = spacingOf wFont p.1
    with_unfolding_all decide
  have hkc : wFont.kerningCache = [] := by with_unfolding_all rfl
  have hk : kerningWF wFont := by
    intro p hp
    rw [hkc] at hp
    exact absurd hp (List.not_mem_nil p)
  have hfit : ∀ c ∈ [97, 98, 32, 99, 100], c ≠ 32 → c ≠ 10 → c ≠ 13 →
      spacingOf wFont c + kerningOf wFont 0 c ≤ (25 : ℚ) := by
    with_unfolding_all decide
  refine ⟨(wFont.getWrap 9 ⟨[97, 98, 32, 99, 100], []⟩ 25).get hs,
    (Option.some_get hs).symm, ?_⟩
  exact c2_wrap_content 9 wFont ⟨[97, 98, 32, 99, 100], []⟩ 25 _ hg hk
    (by decide) hfit (Option.some_get hs).symm

end LoveFont
